import Mathlib

/-!
Verification of the rainbow-smoke color-placement program.

The program places every 24-bit color exactly once on a 4096 x 4096 grid.
Its core is a placement loop driven by a frontier map
`available : HashMap (usize, usize) [f32; 3]` kept in lockstep with a
kd-tree of the same entries, a grid `buf : TooDee<Option<usize>>`, and
helper functions `coord_to_int`, `int_to_coord`, `neighbors`,
`empty_neighbors` and `target_color`.

This file gives a shallow embedding of that code:
* `f32` perceptual values are modelled as exact rationals (`Vec3`);
* the `HashMap` is modelled as an association list acted on only through
  map-faithful operations (`lookupA`, `eraseKey`, `insertKey`);
* the kd-tree (external crate `kiddo`) is modelled by its documented
  contract: a multiset of (point, payload) pairs with `kdAdd`, `kdRemove`
  (removes all matching pairs) and `nearestOne` (returns squared-Euclidean
  distance and payload of a closest point);
* the grid is an association list from coordinates to stored catalog
  indices; `Grid.set` models the bounds-checked assignment
  `buf[x][y] = Some(v)`.

All definitions are executable, and the theorems below settle the stated
properties of the program.
-/

set_option maxHeartbeats 1600000

namespace RainbowSmoke

/-- Perceptual color coordinate: the `[f32; 3]` oklab triple, modelled as
exact rationals. -/
abbrev Vec3 : Type := ℚ × ℚ × ℚ

/-- `fn coord_to_int(x: usize, y: usize) -> usize { (x << 12) | y }` -/
def coord_to_int (x y : ℕ) : ℕ := (x <<< 12) ||| y

/-- `fn int_to_coord(i: usize) -> (usize, usize) { (i >> 12, i & ((1 << 12) - 1)) }` -/
def int_to_coord (i : ℕ) : ℕ × ℕ := (i >>> 12, i &&& ((1 <<< 12) - 1))

/-! ## Association lists

`HashMap<(usize, usize), [f32; 3]>` (and the filled part of the
`TooDee<Option<usize>>` grid) are modelled as association lists acted on
only through the map operations below, so that they denote finite maps. -/

/-- `HashMap` lookup. -/
def lookupA {α : Type} (p : ℕ × ℕ) : List ((ℕ × ℕ) × α) → Option α
  | [] => none
  | e :: t => if e.1 = p then some e.2 else lookupA p t

/-- `HashMap::remove`: drop every entry stored under key `p`. -/
def eraseKey {α : Type} (p : ℕ × ℕ) (l : List ((ℕ × ℕ) × α)) :
    List ((ℕ × ℕ) × α) :=
  l.filter (fun e => decide (e.1 ≠ p))

/-- `HashMap::insert`: bind key `p` to `v`, replacing any previous binding. -/
def insertKey {α : Type} (p : ℕ × ℕ) (v : α) (l : List ((ℕ × ℕ) × α)) :
    List ((ℕ × ℕ) × α) :=
  (p, v) :: eraseKey p l

/-! ## The grid

`buf : TooDee<Option<usize>>` with `TooDee::new(1 << 12, 1 << 12)`:
a `rows × cols` grid of `Option<usize>` cells, all initially `None`.
`cells` is the association list of filled cells. -/

structure Grid where
  rows : ℕ
  cols : ℕ
  cells : List ((ℕ × ℕ) × ℕ)
deriving DecidableEq

/-- Reading `buf[x][y]` at an in-range coordinate. -/
def Grid.get (g : Grid) (x y : ℕ) : Option ℕ := lookupA (x, y) g.cells

/-- The assignment `buf[x][y] = Some(v)`; `TooDee` indexing panics out of
bounds, which is modelled by `none`. -/
def Grid.set (g : Grid) (x y v : ℕ) : Option Grid :=
  if x < g.rows ∧ y < g.cols then
    some { g with cells := insertKey (x, y) v g.cells }
  else none

/-- `const NEIGHBORS: &[(isize, isize)]` — the eight relative offsets, in
source order. -/
def NEIGHBORS : List (ℤ × ℤ) :=
  [(0, 1), (1, 0), (0, -1), (-1, 0), (1, 1), (-1, -1), (-1, 1), (1, -1)]

/-- `fn neighbors<T>(x, y, data)`: offsets applied to `(x, y)`, filtered by
`new_x >= 0 && new_x < num_rows && new_y >= 0 && new_y < num_cols`, each
paired with the stored cell value (used at `T = Option<usize>`). -/
def neighbors (x y : ℕ) (g : Grid) : List (ℕ × ℕ × Option ℕ) :=
  (((NEIGHBORS.map (fun d => ((x : ℤ) + d.1, (y : ℤ) + d.2))).filter
      (fun c => decide (0 ≤ c.1 ∧ c.1 < (g.rows : ℤ) ∧ 0 ≤ c.2 ∧ c.2 < (g.cols : ℤ)))).map
      (fun c => (c.1.toNat, c.2.toNat))).map
    (fun c => (c.1, c.2, g.get c.1 c.2))

/-- `fn empty_neighbors<T>(x, y, data)`: the neighbors whose cell is `None`. -/
def empty_neighbors (x y : ℕ) (g : Grid) : List (ℕ × ℕ) :=
  (neighbors x y g).filterMap
    (fun t => if t.2.2.isNone then some (t.1, t.2.1) else none)

/-- `Iterator::reduce`. -/
def reduceL {α : Type} (f : α → α → α) : List α → Option α
  | [] => none
  | a :: t => some (t.foldl f a)

/-- `fn target_color(x, y, data, colors)`: running `(count, acc)` pairs over
the filled neighbors, then the component-wise division; the terminal
`.unwrap()` is modelled by the `Option`. `colors[c]` is total here
(`getD`); every index stored by the program is in range. -/
def target_color (x y : ℕ) (g : Grid) (colors : List Vec3) : Option Vec3 :=
  (reduceL
      (fun a b => (a.1 + 1, (a.2.1 + b.2.1, a.2.2.1 + b.2.2.1, a.2.2.2 + b.2.2.2)))
      ((neighbors x y g).filterMap
        (fun t => t.2.2.map (fun c => ((1 : ℚ), colors.getD c ((0 : ℚ), (0 : ℚ), (0 : ℚ))))))).map
    (fun p => (p.2.1 / p.1, p.2.2.1 / p.1, p.2.2.2 / p.1))

/-! ## target_color -/

/-- The perceptual coordinates of the filled 8-neighbors of `(x, y)`, in
iteration order (the `flat_map` input of `target_color` without the count
tags). -/
def filled_vals (x y : ℕ) (g : Grid) (colors : List Vec3) : List Vec3 :=
  (neighbors x y g).filterMap
    (fun t => t.2.2.map (fun c => colors.getD c ((0 : ℚ), (0 : ℚ), (0 : ℚ))))

/-! ## The kd-tree and the placement loop

The kd-tree (`kiddo::KdTree<f32, 3>`) is external; it is modelled by its
contract as a multiset of (point, payload) pairs. `add` inserts a pair,
`remove(&point, payload)` removes every matching pair, and
`nearest_one(&query, &squared_euclidean)` returns the squared Euclidean
distance and payload of an entry whose point is closest to the query
(an arbitrary but deterministic minimizer; here the first one in insertion
order). `nearest_one` on an empty tree has no answer (`none`). -/

/-- `kiddo::float::distance::squared_euclidean` on `[f32; 3]`. -/
def squaredEuclidean (a b : Vec3) : ℚ :=
  (a.1 - b.1) ^ 2 + (a.2.1 - b.2.1) ^ 2 + (a.2.2 - b.2.2) ^ 2

/-- `KdTree::add(&point, payload)`. -/
def kdAdd (pt : Vec3) (k : ℕ) (t : List (Vec3 × ℕ)) : List (Vec3 × ℕ) :=
  (pt, k) :: t

/-- `KdTree::remove(&point, payload)`: removes all matching entries. -/
def kdRemove (pt : Vec3) (k : ℕ) (t : List (Vec3 × ℕ)) : List (Vec3 × ℕ) :=
  t.filter (fun e => decide (¬ (e.1 = pt ∧ e.2 = k)))

/-- One comparison inside the nearest-point search. -/
def nearestStep (q : Vec3) (best : Option (ℚ × ℕ)) (e : Vec3 × ℕ) :
    Option (ℚ × ℕ) :=
  match best with
  | none => some (squaredEuclidean q e.1, e.2)
  | some b =>
    if squaredEuclidean q e.1 < b.1 then some (squaredEuclidean q e.1, e.2)
    else best

/-- `KdTree::nearest_one(&query, &squared_euclidean)`. -/
def nearestOne (t : List (Vec3 × ℕ)) (q : Vec3) : Option (ℚ × ℕ) :=
  t.foldl (nearestStep q) none

/-- The mutable state of `main`'s placement loop: the kd-tree, the
`available` frontier map, and the grid `buf`. -/
structure LoopState where
  kdtree : List (Vec3 × ℕ)
  available : List ((ℕ × ℕ) × Vec3)
  buf : Grid
deriving DecidableEq

/-- The coordinate picked by an iteration:
`if color_idx == 0 { (num_rows/2, num_cols/2) } else { int_to_coord(kdtree.nearest_one(lab, &squared_euclidean).1) }`. -/
def chooseCoord (colorIdx : ℕ) (lab : Vec3) (st : LoopState) : Option (ℕ × ℕ) :=
  if colorIdx = 0 then some (st.buf.rows / 2, st.buf.cols / 2)
  else
    match nearestOne st.kdtree lab with
    | none => none
    | some r => some (int_to_coord r.2)

/-- `if let Some(old) = available.remove(&(x, y)) { kdtree.remove(&old, coord_to_int(x, y)); }` -/
def removePlaced (x y : ℕ) (st : LoopState) : LoopState :=
  match lookupA (x, y) st.available with
  | some old =>
    { st with
      available := eraseKey (x, y) st.available
      kdtree := kdRemove old (coord_to_int x y) st.kdtree }
  | none => st

/-- One body of the neighbor loop:
`if let Some(old) = available.insert((nx, ny), target_color(nx, ny, &buf, &oklabs)) { kdtree.remove(&old, coord_to_int(nx, ny)); } kdtree.add(&available[&(nx, ny)], coord_to_int(nx, ny));`
The `Option` result models the panic inside `target_color`. -/
def upsertNeighbor (labs : List Vec3) (st : LoopState) (p : ℕ × ℕ) :
    Option LoopState :=
  match target_color p.1 p.2 st.buf labs with
  | none => none
  | some tc =>
    some
      { st with
        available := insertKey p tc st.available
        kdtree :=
          kdAdd tc (coord_to_int p.1 p.2)
            (match lookupA p st.available with
              | some old => kdRemove old (coord_to_int p.1 p.2) st.kdtree
              | none => st.kdtree) }

/-- `for (nx, ny) in empty_neighbors(x, y, &buf) { ... }` -/
def foldUpserts (labs : List Vec3) : List (ℕ × ℕ) → LoopState → Option LoopState
  | [], st => some st
  | p :: ps, st =>
    match upsertNeighbor labs st p with
    | none => none
    | some st' => foldUpserts labs ps st'

/-- One iteration of `for (color_idx, lab) in oklabs.iter().enumerate()`. -/
def step (labs : List Vec3) (colorIdx : ℕ) (lab : Vec3) (st : LoopState) :
    Option LoopState :=
  match chooseCoord colorIdx lab st with
  | none => none
  | some xy =>
    match (removePlaced xy.1 xy.2 st).buf.set xy.1 xy.2 colorIdx with
    | none => none
    | some g2 =>
      foldUpserts labs (empty_neighbors xy.1 xy.2 g2)
        { removePlaced xy.1 xy.2 st with buf := g2 }

/-- The state before the loop: empty tree, empty map, all-`None` grid of
side `S` (the program uses `S = 1 << 12`). -/
def initState (S : ℕ) : LoopState := ⟨[], [], ⟨S, S, []⟩⟩

/-- The loop over a list of (index, lab) pairs. -/
def runIters (labs : List Vec3) : List (ℕ × Vec3) → LoopState → Option LoopState
  | [], st => some st
  | il :: rest, st =>
    match step labs il.1 il.2 st with
    | none => none
    | some st' => runIters labs rest st'

/-- The whole placement loop of `main`. -/
def run (S : ℕ) (labs : List Vec3) : Option LoopState :=
  runIters labs labs.enum (initState S)

/-- The loop stopped after its first `n` iterations. -/
def runN (S : ℕ) (labs : List Vec3) (n : ℕ) : Option LoopState :=
  runIters labs (labs.enum.take n) (initState S)

/-- A frontier cell: in range, empty, with at least one filled 8-neighbor. -/
def isFrontier (g : Grid) (p : ℕ × ℕ) : Prop :=
  p.1 < g.rows ∧ p.2 < g.cols ∧ g.get p.1 p.2 = none ∧
    ∃ t ∈ neighbors p.1 p.2 g, t.2.2.isSome

/-- The kd-tree image of the `available` map. -/
def mappedAvail (l : List ((ℕ × ℕ) × Vec3)) : List (Vec3 × ℕ) :=
  l.map (fun e => (e.2, coord_to_int e.1.1 e.1.2))

/-- Frontier-index consistency: the kd-tree holds exactly the entries of the
`available` map (as a multiset), each keyed by its packed coordinate. -/
def Consistent (st : LoopState) : Prop :=
  st.kdtree.Perm (mappedAvail st.available)

/-- The loop invariant after `i` iterations on a side-`S` grid. -/
structure Inv (S i : ℕ) (st : LoopState) : Prop where
  rows_eq : st.buf.rows = S
  cols_eq : st.buf.cols = S
  cells_nodup : (st.buf.cells.map Prod.fst).Nodup
  cells_range : ∀ p ∈ st.buf.cells.map Prod.fst, p.1 < S ∧ p.2 < S
  cells_vals : st.buf.cells.map Prod.snd = (List.range i).reverse
  avail_nodup : (st.available.map Prod.fst).Nodup
  avail_range : ∀ p ∈ st.available.map Prod.fst, p.1 < S ∧ p.2 < S
  avail_frontier : ∀ p : ℕ × ℕ, (lookupA p st.available).isSome ↔ isFrontier st.buf p
  tree_perm : st.kdtree.Perm (mappedAvail st.available)

/-! ## Theorems -/

theorem shiftLeft_lor_shiftRight (x y : ℕ) (hy : y < 4096) :
    ((x <<< 12) ||| y) >>> 12 = x := by
  apply Nat.eq_of_testBit_eq
  intro i
  rw [Nat.testBit_shiftRight, Nat.testBit_lor, Nat.testBit_shiftLeft]
  have h1 : 12 + i ≥ 12 := by omega
  have h2 : y < 2 ^ (12 + i) := by
    calc y < 4096 := hy
    _ = 2 ^ 12 := by norm_num
    _ ≤ 2 ^ (12 + i) := Nat.pow_le_pow_right (by norm_num) (by omega)
  rw [Nat.testBit_lt_two_pow h2]
  simp [h1, Nat.add_sub_cancel_left]

theorem shiftLeft_lor_land (x y : ℕ) (hy : y < 4096) :
    ((x <<< 12) ||| y) &&& ((1 <<< 12) - 1) = y := by
  have h4096 : ((1 : ℕ) <<< 12) - 1 = 2 ^ 12 - 1 := by decide
  rw [h4096]
  apply Nat.eq_of_testBit_eq
  intro i
  rw [Nat.testBit_land, Nat.testBit_lor, Nat.testBit_shiftLeft,
    Nat.testBit_two_pow_sub_one]
  by_cases h : i < 12
  · have : ¬ (i ≥ 12) := by omega
    simp [h, this]
  · have hge : i ≥ 12 := by omega
    have h2 : y < 2 ^ i := by
      calc y < 4096 := hy
      _ = 2 ^ 12 := by norm_num
      _ ≤ 2 ^ i := Nat.pow_le_pow_right (by norm_num) hge
    rw [Nat.testBit_lt_two_pow h2]
    simp [h]

theorem int_to_coord_coord_to_int (x y : ℕ) (hy : y < 4096) :
    int_to_coord (coord_to_int x y) = (x, y) := by
  unfold int_to_coord coord_to_int
  rw [shiftLeft_lor_shiftRight x y hy, shiftLeft_lor_land x y hy]

theorem coord_to_int_injOn (x y x' y' : ℕ) (hy : y < 4096) (hy' : y' < 4096)
    (h : coord_to_int x y = coord_to_int x' y') : x = x' ∧ y = y' := by
  have h1 := int_to_coord_coord_to_int x y hy
  have h2 := int_to_coord_coord_to_int x' y' hy'
  rw [h] at h1
  rw [h1] at h2
  exact ⟨congrArg Prod.fst h2, congrArg Prod.snd h2⟩

/-- C7: the coordinate packing and unpacking functions are mutual inverses
over the full valid coordinate range `0 ≤ x, y < 4096`. -/
theorem C7_pack_unpack_roundtrip (x y : ℕ) (hx : x < 4096) (hy : y < 4096) :
    int_to_coord (coord_to_int x y) = (x, y) :=
  int_to_coord_coord_to_int x y hy

theorem C7_pack_unpack_roundtrip_witness :
    5 < 4096 ∧ 7 < 4096 ∧ int_to_coord (coord_to_int 5 7) = (5, 7) :=
  ⟨by decide, by decide, C7_pack_unpack_roundtrip 5 7 (by decide) (by decide)⟩

/-- C10 (as stated) is false: `coord_to_int 1 4096 = 4096 = coord_to_int 1 0`,
not `coord_to_int 2 0 = 8192`; the claimed identity
`coord_to_int x 4096 = coord_to_int (x+1) 0` fails for odd `x`. -/
theorem C10_counterexample :
    ¬ (coord_to_int 1 4096 = coord_to_int (1 + 1) 0) := by decide

theorem lor_no_overlap (x y : ℕ) (hy : y < 4096) :
    (x <<< 12) ||| y = x * 4096 + y := by
  have hy' : y < 2 ^ 12 := by omega
  rw [Nat.shiftLeft_eq]
  have h := Nat.mul_add_lt_is_or (i := 12) hy' x
  have hc : x * 2 ^ 12 = 2 ^ 12 * x := Nat.mul_comm _ _
  rw [hc, ← h]
  omega

theorem coord_to_int_div_mod (k : ℕ) : coord_to_int (k / 4096) (k % 4096) = k := by
  unfold coord_to_int
  rw [lor_no_overlap _ _ (Nat.mod_lt _ (by norm_num))]
  omega

/-- C10 amended: for `y ≥ 4096` the packed key collides with that of a
different coordinate pair; the specific identity
`coord_to_int x 4096 = coord_to_int (x+1) 0` holds for even `x` (it fails
for odd `x`); and the round-trip fails for every `y ≥ 4096`. -/
theorem C10_amended (x y : ℕ) (hy : 4096 ≤ y) :
    (∃ x' y', (x', y') ≠ (x, y) ∧ coord_to_int x' y' = coord_to_int x y) ∧
      (x % 2 = 0 → coord_to_int x 4096 = coord_to_int (x + 1) 0) ∧
      int_to_coord (coord_to_int x y) ≠ (x, y) := by
  refine ⟨⟨coord_to_int x y / 4096, coord_to_int x y % 4096, ?_, ?_⟩, ?_, ?_⟩
  · intro hcontra
    have h2 : coord_to_int x y % 4096 = y := congrArg Prod.snd hcontra
    have : coord_to_int x y % 4096 < 4096 := Nat.mod_lt _ (by norm_num)
    omega
  · exact coord_to_int_div_mod (coord_to_int x y)
  · intro hx2
    obtain ⟨m, hm⟩ : ∃ m, x = 2 * m := ⟨x / 2, by omega⟩
    subst hm
    unfold coord_to_int
    have h1 : (2 * m) <<< 12 = 2 ^ 13 * m := by
      rw [Nat.shiftLeft_eq]; ring
    have h2 : (2 * m + 1) <<< 12 = 2 ^ 13 * m + 4096 := by
      rw [Nat.shiftLeft_eq]; ring
    have h3 : (4096 : ℕ) < 2 ^ 13 := by norm_num
    have h4 := Nat.mul_add_lt_is_or (i := 13) h3 m
    rw [h1, h2, ← h4]
    simp
  · intro hcontra
    have h2 : coord_to_int x y &&& ((1 <<< 12) - 1) = y := congrArg Prod.snd hcontra
    have hmask : ((1 : ℕ) <<< 12) - 1 = 2 ^ 12 - 1 := by decide
    rw [hmask, Nat.and_pow_two_sub_one_eq_mod] at h2
    have : coord_to_int x y % 2 ^ 12 < 2 ^ 12 := Nat.mod_lt _ (by norm_num)
    omega

theorem C10_amended_witness :
    4096 ≤ 4096 ∧
      ((∃ x' y', (x', y') ≠ (3, 4096) ∧ coord_to_int x' y' = coord_to_int 3 4096) ∧
        (3 % 2 = 0 → coord_to_int 3 4096 = coord_to_int (3 + 1) 0) ∧
        int_to_coord (coord_to_int 3 4096) ≠ (3, 4096)) :=
  ⟨by decide, C10_amended 3 4096 (by decide)⟩

/-! ## Association list lemmas -/

theorem lookupA_eq_none_iff {α : Type} (p : ℕ × ℕ) (l : List ((ℕ × ℕ) × α)) :
    lookupA p l = none ↔ p ∉ l.map Prod.fst := by
  induction l with
  | nil => simp [lookupA]
  | cons e t ih =>
    simp only [lookupA, List.map_cons, List.mem_cons]
    by_cases h : e.1 = p
    · simp [h]
    · rw [if_neg h, ih]
      constructor
      · intro hn hc
        rcases hc with hc | hc
        · exact h hc.symm
        · exact hn hc
      · intro hn hc
        exact hn (Or.inr hc)

theorem lookupA_mem {α : Type} {p : ℕ × ℕ} {v : α} {l : List ((ℕ × ℕ) × α)}
    (h : lookupA p l = some v) : (p, v) ∈ l := by
  induction l with
  | nil => simp [lookupA] at h
  | cons e t ih =>
    simp only [lookupA] at h
    by_cases he : e.1 = p
    · rw [if_pos he] at h
      have hv : e.2 = v := by injection h
      have he2 : e = (p, v) := by
        cases e
        simp_all
      rw [he2]
      exact List.mem_cons_self _ _
    · rw [if_neg he] at h
      exact List.mem_cons_of_mem _ (ih h)

theorem lookupA_isSome_iff {α : Type} (p : ℕ × ℕ) (l : List ((ℕ × ℕ) × α)) :
    (lookupA p l).isSome ↔ p ∈ l.map Prod.fst := by
  cases hl : lookupA p l with
  | none =>
    constructor
    · intro hs
      simp at hs
    · intro hm
      exact absurd hm ((lookupA_eq_none_iff p l).1 hl)
  | some v =>
    constructor
    · intro _
      exact List.mem_map.2 ⟨(p, v), lookupA_mem hl, rfl⟩
    · intro _
      simp

theorem mem_lookupA {α : Type} {p : ℕ × ℕ} {v : α} {l : List ((ℕ × ℕ) × α)}
    (hnd : (l.map Prod.fst).Nodup) (h : (p, v) ∈ l) : lookupA p l = some v := by
  induction l with
  | nil => simp at h
  | cons e t ih =>
    simp only [List.map_cons, List.nodup_cons] at hnd
    rcases List.mem_cons.1 h with h1 | h1
    · subst h1
      simp [lookupA]
    · have hne : e.1 ≠ p := by
        intro hc
        exact hnd.1 (hc ▸ (List.mem_map.2 ⟨(p, v), h1, rfl⟩))
      simp only [lookupA, if_neg hne]
      exact ih hnd.2 h1

theorem mem_eraseKey {α : Type} {q : ℕ × ℕ} {e : (ℕ × ℕ) × α}
    {l : List ((ℕ × ℕ) × α)} :
    e ∈ eraseKey q l ↔ e ∈ l ∧ e.1 ≠ q := by
  simp [eraseKey, List.mem_filter]

theorem lookupA_eraseKey_self {α : Type} (p : ℕ × ℕ) (l : List ((ℕ × ℕ) × α)) :
    lookupA p (eraseKey p l) = none := by
  rw [lookupA_eq_none_iff]
  intro hc
  obtain ⟨e, he, hfst⟩ := List.mem_map.1 hc
  exact (mem_eraseKey.1 he).2 hfst

theorem lookupA_eraseKey_ne {α : Type} {p q : ℕ × ℕ} (l : List ((ℕ × ℕ) × α))
    (hne : q ≠ p) : lookupA q (eraseKey p l) = lookupA q l := by
  induction l with
  | nil => rfl
  | cons e t ih =>
    by_cases he : e.1 = p
    · have : eraseKey p (e :: t) = eraseKey p t := by
        simp [eraseKey, List.filter_cons, he]
      rw [this, ih]
      have hne2 : e.1 ≠ q := fun hc => hne (by rw [← hc]; exact he)
      simp [lookupA, hne2]
    · have : eraseKey p (e :: t) = e :: eraseKey p t := by
        simp [eraseKey, List.filter_cons, he]
      rw [this]
      simp only [lookupA, ih]

theorem lookupA_insertKey_self {α : Type} (p : ℕ × ℕ) (v : α)
    (l : List ((ℕ × ℕ) × α)) : lookupA p (insertKey p v l) = some v := by
  simp [insertKey, lookupA]

theorem lookupA_insertKey_ne {α : Type} {p q : ℕ × ℕ} (v : α)
    (l : List ((ℕ × ℕ) × α)) (hne : q ≠ p) :
    lookupA q (insertKey p v l) = lookupA q l := by
  have hne2 : p ≠ q := fun hc => hne hc.symm
  simp only [insertKey, lookupA, if_neg hne2]
  exact lookupA_eraseKey_ne l hne

theorem eraseKey_keys_nodup {α : Type} {p : ℕ × ℕ} {l : List ((ℕ × ℕ) × α)}
    (h : (l.map Prod.fst).Nodup) : ((eraseKey p l).map Prod.fst).Nodup :=
  ((List.filter_sublist l).map Prod.fst).nodup h

theorem insertKey_keys_nodup {α : Type} (p : ℕ × ℕ) (v : α)
    {l : List ((ℕ × ℕ) × α)} (h : (l.map Prod.fst).Nodup) :
    ((insertKey p v l).map Prod.fst).Nodup := by
  simp only [insertKey, List.map_cons, List.nodup_cons]
  refine ⟨fun hc => ?_, eraseKey_keys_nodup h⟩
  obtain ⟨e, he, hfst⟩ := List.mem_map.1 hc
  exact (mem_eraseKey.1 he).2 hfst

theorem insertKey_keys_mem {α : Type} {p q : ℕ × ℕ} {v : α}
    {l : List ((ℕ × ℕ) × α)} (h : q ∈ (insertKey p v l).map Prod.fst) :
    q = p ∨ q ∈ l.map Prod.fst := by
  simp only [insertKey, List.map_cons, List.mem_cons] at h
  rcases h with h | h
  · exact Or.inl h
  · obtain ⟨e, he, hfst⟩ := List.mem_map.1 h
    exact Or.inr (hfst ▸ List.mem_map.2 ⟨e, (mem_eraseKey.1 he).1, rfl⟩)

theorem eraseKey_keys_mem {α : Type} {p q : ℕ × ℕ} {l : List ((ℕ × ℕ) × α)}
    (h : q ∈ (eraseKey p l).map Prod.fst) : q ∈ l.map Prod.fst := by
  obtain ⟨e, he, hfst⟩ := List.mem_map.1 h
  exact hfst ▸ List.mem_map.2 ⟨e, (mem_eraseKey.1 he).1, rfl⟩

/-! ## Neighbor iteration -/

theorem mem_neighbors_iff {g : Grid} {x y a b : ℕ} {v : Option ℕ} :
    (a, b, v) ∈ neighbors x y g ↔
      (((a : ℤ) - (x : ℤ), (b : ℤ) - (y : ℤ)) ∈ NEIGHBORS ∧
        a < g.rows ∧ b < g.cols ∧ v = g.get a b) := by
  unfold neighbors
  simp only [List.mem_map, List.mem_filter, decide_eq_true_eq]
  constructor
  · rintro ⟨c, ⟨c', ⟨⟨d, hd, rfl⟩, hcond⟩, rfl⟩, heq⟩
    obtain ⟨hc1, hc2, hc3, hc4⟩ := hcond
    have ha : a = ((x : ℤ) + d.1).toNat := (congrArg (fun t => t.1) heq).symm
    have hb : b = ((y : ℤ) + d.2).toNat := (congrArg (fun t => t.2.1) heq).symm
    have hv : v = g.get ((x : ℤ) + d.1).toNat ((y : ℤ) + d.2).toNat :=
      (congrArg (fun t => t.2.2) heq).symm
    have haz : (a : ℤ) = (x : ℤ) + d.1 := by omega
    have hbz : (b : ℤ) = (y : ℤ) + d.2 := by omega
    have hde : ((a : ℤ) - (x : ℤ), (b : ℤ) - (y : ℤ)) = d := by
      rw [haz, hbz]
      cases d
      simp
    refine ⟨hde ▸ hd, by omega, by omega, ?_⟩
    rw [hv, ha, hb]
  · rintro ⟨hd, ha, hb, hv⟩
    refine ⟨(a, b), ⟨((x : ℤ) + ((a : ℤ) - (x : ℤ)), (y : ℤ) + ((b : ℤ) - (y : ℤ))),
      ⟨⟨((a : ℤ) - (x : ℤ), (b : ℤ) - (y : ℤ)), hd, rfl⟩, by
        constructor
        · omega
        · constructor
          · omega
          · constructor <;> omega⟩, by
        simp only [Prod.mk.injEq]
        constructor <;> omega⟩, ?_⟩
    rw [hv]

theorem NEIGHBORS_neg {d1 d2 : ℤ} (h : (d1, d2) ∈ NEIGHBORS) :
    (-d1, -d2) ∈ NEIGHBORS := by
  simp only [NEIGHBORS, List.mem_cons, List.not_mem_nil, or_false,
    Prod.mk.injEq] at h ⊢
  omega

/-- If `(a, b)` is reported as a neighbor of `(x, y)` and `(x, y)` itself is
in range, then `(x, y)` is reported as a neighbor of `(a, b)`. -/
theorem neighbors_symm {g : Grid} {x y a b : ℕ} {v : Option ℕ}
    (hx : x < g.rows) (hy : y < g.cols)
    (h : (a, b, v) ∈ neighbors x y g) :
    (x, y, g.get x y) ∈ neighbors a b g := by
  obtain ⟨hd, _, _, _⟩ := mem_neighbors_iff.1 h
  refine mem_neighbors_iff.2 ⟨?_, hx, hy, rfl⟩
  have := NEIGHBORS_neg hd
  have he1 : (x : ℤ) - (a : ℤ) = -((a : ℤ) - (x : ℤ)) := by omega
  have he2 : (y : ℤ) - (b : ℤ) = -((b : ℤ) - (y : ℤ)) := by omega
  rw [he1, he2]
  exact this

theorem length_ite_cons {α : Type} (P : Prop) [Decidable P] (a : α)
    (l : List α) :
    (if P then a :: l else l).length = (if P then 1 else 0) + l.length := by
  split <;> simp [Nat.add_comm]

/-- C6: `neighbors` yields only in-range coordinates; on a square grid of
side `S ≥ 2` a corner cell has exactly 3 neighbors, an edge non-corner cell
exactly 5, and an interior cell exactly 8. -/
theorem C6_neighbors_bounds_counts (g : Grid) (S x y : ℕ)
    (hr : g.rows = S) (hc : g.cols = S) (hx : x < S) (hy : y < S) :
    (∀ t ∈ neighbors x y g, t.1 < S ∧ t.2.1 < S) ∧
      (2 ≤ S → (x = 0 ∨ x = S - 1) → (y = 0 ∨ y = S - 1) →
        (neighbors x y g).length = 3) ∧
      ((((x = 0 ∨ x = S - 1) ∧ 0 < y ∧ y < S - 1) ∨
          ((y = 0 ∨ y = S - 1) ∧ 0 < x ∧ x < S - 1)) →
        (neighbors x y g).length = 5) ∧
      (0 < x → x < S - 1 → 0 < y → y < S - 1 → (neighbors x y g).length = 8) := by
  subst hr
  refine ⟨?_, ?_, ?_, ?_⟩
  · intro t ht
    rcases t with ⟨a, b, v⟩
    obtain ⟨_, ha, hb, _⟩ := mem_neighbors_iff.1 ht
    exact ⟨ha, hc ▸ hb⟩
  · intro hS hcx hcy
    rcases hcx with h1 | h1 <;> rcases hcy with h2 | h2 <;> subst h1 <;> subst h2 <;>
      · simp only [neighbors, NEIGHBORS, List.map_cons, List.map_nil,
          List.length_map, List.filter_cons, List.filter_nil, decide_eq_true_eq,
          length_ite_cons, List.length_nil]
        split_ifs <;> omega
  · intro hcase
    rcases hcase with ⟨h1, h2, h3⟩ | ⟨h1, h2, h3⟩ <;> rcases h1 with h1 | h1 <;>
      subst h1 <;>
      · simp only [neighbors, NEIGHBORS, List.map_cons, List.map_nil,
          List.length_map, List.filter_cons, List.filter_nil, decide_eq_true_eq,
          length_ite_cons, List.length_nil]
        split_ifs <;> omega
  · intro h1 h2 h3 h4
    simp only [neighbors, NEIGHBORS, List.map_cons, List.map_nil,
      List.length_map, List.filter_cons, List.filter_nil, decide_eq_true_eq,
      length_ite_cons, List.length_nil]
    split_ifs <;> omega

theorem C6_neighbors_bounds_counts_witness :
    ((⟨4, 4, []⟩ : Grid).rows = 4 ∧ (⟨4, 4, []⟩ : Grid).cols = 4 ∧
        (1 : ℕ) < 4 ∧ (1 : ℕ) < 4) ∧
      ((∀ t ∈ neighbors 1 1 (⟨4, 4, []⟩ : Grid), t.1 < 4 ∧ t.2.1 < 4) ∧
        (2 ≤ 4 → (1 = 0 ∨ 1 = 4 - 1) → (1 = 0 ∨ 1 = 4 - 1) →
          (neighbors 1 1 (⟨4, 4, []⟩ : Grid)).length = 3) ∧
        ((((1 = 0 ∨ 1 = 4 - 1) ∧ 0 < 1 ∧ 1 < 4 - 1) ∨
            ((1 = 0 ∨ 1 = 4 - 1) ∧ 0 < 1 ∧ 1 < 4 - 1) →
          (neighbors 1 1 (⟨4, 4, []⟩ : Grid)).length = 5) ∧
        (0 < 1 → 1 < 4 - 1 → 0 < 1 → 1 < 4 - 1 →
          (neighbors 1 1 (⟨4, 4, []⟩ : Grid)).length = 8))) :=
  ⟨⟨rfl, rfl, by decide, by decide⟩,
    C6_neighbors_bounds_counts ⟨4, 4, []⟩ 4 1 1 rfl rfl (by decide) (by decide)⟩

theorem reduceL_cons {α : Type} (f : α → α → α) (a : α) (l : List α) :
    reduceL f (a :: l) = some (l.foldl f a) := rfl

theorem filterMap_pair_eq (l : List (ℕ × ℕ × Option ℕ)) (w : ℕ → Vec3) :
    l.filterMap (fun t => t.2.2.map (fun c => ((1 : ℚ), w c))) =
      (l.filterMap (fun t => t.2.2.map w)).map (fun v => ((1 : ℚ), v)) := by
  induction l with
  | nil => rfl
  | cons t rest ih =>
    cases hv : t.2.2 with
    | none => simp [List.filterMap_cons, hv, ih]
    | some c => simp [List.filterMap_cons, hv, ih]

theorem foldl_pairs (l : List Vec3) :
    ∀ c a1 a2 a3 : ℚ,
      (l.map (fun v => ((1 : ℚ), v))).foldl
          (fun a b => (a.1 + 1, (a.2.1 + b.2.1, a.2.2.1 + b.2.2.1, a.2.2.2 + b.2.2.2)))
          (c, (a1, a2, a3)) =
        (c + l.length,
          (a1 + (l.map (fun v => v.1)).sum,
            a2 + (l.map (fun v => v.2.1)).sum,
            a3 + (l.map (fun v => v.2.2)).sum)) := by
  induction l with
  | nil => intro c a1 a2 a3; simp
  | cons v rest ih =>
    intro c a1 a2 a3
    simp only [List.map_cons, List.foldl_cons, ih, List.length_cons, List.sum_cons]
    refine Prod.ext ?_ (Prod.ext ?_ (Prod.ext ?_ ?_)) <;> simp <;> push_cast <;> ring

/-- C4: when `(x, y)` has at least one filled 8-neighbor, `target_color`
returns the coordinate-wise arithmetic mean of the filled neighbors'
perceptual coordinates (exact in the rational model of `f32`). -/
theorem C4_target_color_mean (x y : ℕ) (g : Grid) (colors : List Vec3)
    (h : filled_vals x y g colors ≠ []) :
    target_color x y g colors = some
      (((filled_vals x y g colors).map (fun v => v.1)).sum /
          ((filled_vals x y g colors).length : ℚ),
        ((filled_vals x y g colors).map (fun v => v.2.1)).sum /
          ((filled_vals x y g colors).length : ℚ),
        ((filled_vals x y g colors).map (fun v => v.2.2)).sum /
          ((filled_vals x y g colors).length : ℚ)) := by
  unfold target_color
  rw [filterMap_pair_eq]
  have hv : (neighbors x y g).filterMap
      (fun t => t.2.2.map (fun c => colors.getD c ((0 : ℚ), (0 : ℚ), (0 : ℚ)))) =
      filled_vals x y g colors := rfl
  rw [hv]
  cases hl : filled_vals x y g colors with
  | nil => exact absurd hl h
  | cons v rest =>
    obtain ⟨v1, v2, v3⟩ := v
    simp only [List.map_cons, reduceL_cons, foldl_pairs, Option.map_some',
      List.sum_cons, List.length_cons]
    refine congrArg some (Prod.ext ?_ (Prod.ext ?_ ?_)) <;> simp <;> push_cast <;> ring

theorem C4_target_color_mean_witness :
    filled_vals 0 0 (⟨2, 2, [((0, 1), 0), ((1, 0), 1)]⟩ : Grid)
        [(1, 2, 3), (5, 6, 7)] ≠ [] ∧
      target_color 0 0 (⟨2, 2, [((0, 1), 0), ((1, 0), 1)]⟩ : Grid)
          [(1, 2, 3), (5, 6, 7)] = some
        (((filled_vals 0 0 (⟨2, 2, [((0, 1), 0), ((1, 0), 1)]⟩ : Grid)
              [(1, 2, 3), (5, 6, 7)]).map (fun v => v.1)).sum /
            ((filled_vals 0 0 (⟨2, 2, [((0, 1), 0), ((1, 0), 1)]⟩ : Grid)
              [(1, 2, 3), (5, 6, 7)]).length : ℚ),
          ((filled_vals 0 0 (⟨2, 2, [((0, 1), 0), ((1, 0), 1)]⟩ : Grid)
              [(1, 2, 3), (5, 6, 7)]).map (fun v => v.2.1)).sum /
            ((filled_vals 0 0 (⟨2, 2, [((0, 1), 0), ((1, 0), 1)]⟩ : Grid)
              [(1, 2, 3), (5, 6, 7)]).length : ℚ),
          ((filled_vals 0 0 (⟨2, 2, [((0, 1), 0), ((1, 0), 1)]⟩ : Grid)
              [(1, 2, 3), (5, 6, 7)]).map (fun v => v.2.2)).sum /
            ((filled_vals 0 0 (⟨2, 2, [((0, 1), 0), ((1, 0), 1)]⟩ : Grid)
              [(1, 2, 3), (5, 6, 7)]).length : ℚ)) :=
  ⟨by decide, C4_target_color_mean 0 0 ⟨2, 2, [((0, 1), 0), ((1, 0), 1)]⟩
    [(1, 2, 3), (5, 6, 7)] (by decide)⟩

/-- Membership in `empty_neighbors`. -/
theorem mem_empty_neighbors_iff {g : Grid} {x y a b : ℕ} :
    (a, b) ∈ empty_neighbors x y g ↔
      (a, b, g.get a b) ∈ neighbors x y g ∧ g.get a b = none := by
  unfold empty_neighbors
  simp only [List.mem_filterMap]
  constructor
  · rintro ⟨⟨t1, t2, tv⟩, ht, hsome⟩
    cases tv with
    | some c => simp at hsome
    | none =>
      simp only [Option.isNone_none, if_true, Option.some.injEq, Prod.mk.injEq]
        at hsome
      obtain ⟨h1, h2⟩ := hsome
      subst h1
      subst h2
      obtain ⟨hd, ha, hb, hv⟩ := mem_neighbors_iff.1 ht
      exact ⟨hv ▸ ht, hv.symm⟩
  · intro hmem
    exact ⟨(a, b, g.get a b), hmem.1, by rw [hmem.2]; rfl⟩

/-- `target_color` succeeds on any still-empty 8-neighbor of a filled
in-range cell: the reduce input is non-empty. -/
theorem target_color_isSome (g : Grid) (x y nx ny c : ℕ) (colors : List Vec3)
    (hx : x < g.rows) (hy : y < g.cols) (hfill : g.get x y = some c)
    (hmem : (nx, ny) ∈ empty_neighbors x y g) :
    (target_color nx ny g colors).isSome = true := by
  obtain ⟨hnb, _⟩ := mem_empty_neighbors_iff.1 hmem
  have hsymm : (x, y, g.get x y) ∈ neighbors nx ny g := neighbors_symm hx hy hnb
  have hpair : ((1 : ℚ), colors.getD c ((0 : ℚ), (0 : ℚ), (0 : ℚ))) ∈
      (neighbors nx ny g).filterMap
        (fun t => t.2.2.map (fun d =>
          ((1 : ℚ), colors.getD d ((0 : ℚ), (0 : ℚ), (0 : ℚ))))) := by
    refine List.mem_filterMap.2 ⟨(x, y, g.get x y), hsymm, ?_⟩
    rw [hfill]
    rfl
  unfold target_color
  cases hl : (neighbors nx ny g).filterMap
      (fun t => t.2.2.map (fun d =>
        ((1 : ℚ), colors.getD d ((0 : ℚ), (0 : ℚ), (0 : ℚ))))) with
  | nil => rw [hl] at hpair; simp at hpair
  | cons a l => rw [reduceL_cons]; rfl

/-- C8: `target_color` is called in the commit step only on the still-empty
8-neighbors `(nx, ny)` of the just-filled cell `(x, y)`; since `(x, y)` is a
filled neighbor of `(nx, ny)`, the reduce is over a non-empty sequence and
the terminal `.unwrap()` (the `Option` here) never fails. -/
theorem C8_target_color_defined (g : Grid) (x y nx ny c : ℕ) (colors : List Vec3)
    (hx : x < g.rows) (hy : y < g.cols) (hfill : g.get x y = some c)
    (hmem : (nx, ny) ∈ empty_neighbors x y g) :
    (target_color nx ny g colors).isSome = true :=
  target_color_isSome g x y nx ny c colors hx hy hfill hmem

theorem C8_target_color_defined_witness :
    ((0 : ℕ) < (⟨2, 2, [((0, 0), 0)]⟩ : Grid).rows ∧
        (0 : ℕ) < (⟨2, 2, [((0, 0), 0)]⟩ : Grid).cols ∧
        (⟨2, 2, [((0, 0), 0)]⟩ : Grid).get 0 0 = some 0 ∧
        (0, 1) ∈ empty_neighbors 0 0 (⟨2, 2, [((0, 0), 0)]⟩ : Grid)) ∧
      (target_color 0 1 (⟨2, 2, [((0, 0), 0)]⟩ : Grid)
          [(1, 2, 3)]).isSome = true :=
  ⟨⟨by decide, by decide, by decide, by decide⟩,
    C8_target_color_defined ⟨2, 2, [((0, 0), 0)]⟩ 0 0 0 1 0 [(1, 2, 3)]
      (by decide) (by decide) (by decide) (by decide)⟩

/-- C9 as stated is false: the grid assignment `buf[x][y] = Some(color_idx)`
carries no already-filled check; at a filled in-bounds cell it succeeds and
silently overwrites (here: cell `(0,0)` holds `5`, the write of `7`
succeeds and the cell then holds `7`). -/
theorem C9_counterexample :
    (⟨2, 2, [((0, 0), 5)]⟩ : Grid).get 0 0 = some 5 ∧
      ((⟨2, 2, [((0, 0), 5)]⟩ : Grid).set 0 0 7).isSome = true ∧
      ∃ g', (⟨2, 2, [((0, 0), 5)]⟩ : Grid).set 0 0 7 = some g' ∧
        g'.get 0 0 = some 7 := by
  refine ⟨by decide, by decide, ⟨2, 2, insertKey (0, 0) 7 [((0, 0), 5)]⟩, by decide, by decide⟩

/-- C9 amended: the grid assignment does not signal an error on an
already-filled cell — for any in-bounds cell, filled or not, it succeeds
and stores the new index (its only failure mode is an out-of-bounds
coordinate). The reference run never performs such an overwrite. -/
theorem C9_amended (g : Grid) (x y v w : ℕ) (hx : x < g.rows)
    (hy : y < g.cols) (hfilled : g.get x y = some w) :
    ∃ g', g.set x y v = some g' ∧ g'.get x y = some v := by
  unfold Grid.set
  rw [if_pos ⟨hx, hy⟩]
  exact ⟨_, rfl, lookupA_insertKey_self _ _ _⟩

theorem C9_amended_witness :
    ((0 : ℕ) < (⟨2, 2, [((0, 0), 5)]⟩ : Grid).rows ∧
        (0 : ℕ) < (⟨2, 2, [((0, 0), 5)]⟩ : Grid).cols ∧
        (⟨2, 2, [((0, 0), 5)]⟩ : Grid).get 0 0 = some 5) ∧
      ∃ g', (⟨2, 2, [((0, 0), 5)]⟩ : Grid).set 0 0 7 = some g' ∧
        g'.get 0 0 = some 7 :=
  ⟨⟨by decide, by decide, by decide⟩,
    C9_amended ⟨2, 2, [((0, 0), 5)]⟩ 0 0 7 5 (by decide) (by decide) (by decide)⟩

/-! ## Nearest-point search lemmas -/

theorem nearestStep_none (q : Vec3) (e : Vec3 × ℕ) :
    nearestStep q none e = some (squaredEuclidean q e.1, e.2) := rfl

theorem nearestStep_some (q : Vec3) (b0 : ℚ × ℕ) (e : Vec3 × ℕ) :
    ∃ b1, nearestStep q (some b0) e = some b1 ∧ b1.1 ≤ b0.1 ∧
      b1.1 ≤ squaredEuclidean q e.1 ∧
      (b1 = b0 ∨ b1 = (squaredEuclidean q e.1, e.2)) := by
  by_cases h : squaredEuclidean q e.1 < b0.1
  · refine ⟨(squaredEuclidean q e.1, e.2), ?_, le_of_lt h, le_refl _, Or.inr rfl⟩
    show (if squaredEuclidean q e.1 < b0.1 then some (squaredEuclidean q e.1, e.2)
      else some b0) = _
    rw [if_pos h]
  · refine ⟨b0, ?_, le_refl _, le_of_not_lt h, Or.inl rfl⟩
    show (if squaredEuclidean q e.1 < b0.1 then some (squaredEuclidean q e.1, e.2)
      else some b0) = _
    rw [if_neg h]

theorem nearestFold_isSome (q : Vec3) :
    ∀ (l : List (Vec3 × ℕ)) (b0 : ℚ × ℕ),
      (l.foldl (nearestStep q) (some b0)).isSome = true := by
  intro l
  induction l with
  | nil => intro b0; rfl
  | cons e t ih =>
    intro b0
    obtain ⟨b1, hb1, _, _, _⟩ := nearestStep_some q b0 e
    rw [List.foldl_cons, hb1]
    exact ih b1

theorem nearestOne_isSome (t : List (Vec3 × ℕ)) (q : Vec3) (h : t ≠ []) :
    (nearestOne t q).isSome = true := by
  cases t with
  | nil => exact absurd rfl h
  | cons e rest =>
    unfold nearestOne
    rw [List.foldl_cons, nearestStep_none]
    exact nearestFold_isSome q rest _

theorem nearestFold_spec (q : Vec3) :
    ∀ (l : List (Vec3 × ℕ)) (b : Option (ℚ × ℕ)) (r : ℚ × ℕ),
      l.foldl (nearestStep q) b = some r →
      ((∃ e ∈ l, r = (squaredEuclidean q e.1, e.2)) ∨ b = some r) ∧
        (∀ e ∈ l, r.1 ≤ squaredEuclidean q e.1) ∧
        (∀ b', b = some b' → r.1 ≤ b'.1) := by
  intro l
  induction l with
  | nil =>
    intro b r h
    refine ⟨Or.inr h, by simp, ?_⟩
    intro b' hb'
    rw [hb'] at h
    cases Option.some.inj h
    exact le_refl _
  | cons e t ih =>
    intro b r h
    rw [List.foldl_cons] at h
    obtain ⟨horigin, hmin, hinit⟩ := ih (nearestStep q b e) r h
    have hstep : ∀ b1, nearestStep q b e = some b1 →
        r.1 ≤ b1.1 := hinit
    cases hb : b with
    | none =>
      rw [hb] at h horigin hinit
      have hb1 : nearestStep q none e = some (squaredEuclidean q e.1, e.2) :=
        nearestStep_none q e
      refine ⟨?_, ?_, by intro b' hb'; cases hb'⟩
      · rcases horigin with ⟨e', he', hr⟩ | hor
        · exact Or.inl ⟨e', List.mem_cons_of_mem _ he', hr⟩
        · rw [hb1] at hor
          exact Or.inl ⟨e, List.mem_cons_self _ _, (Option.some.inj hor).symm⟩
      · intro e' he'
        rcases List.mem_cons.1 he' with rfl | he'
        · have := hinit _ hb1
          simpa using this
        · exact hmin e' he'
    | some b0 =>
      rw [hb] at h horigin hinit
      obtain ⟨b1, hb1, hle0, hlee, hcases⟩ := nearestStep_some q b0 e
      refine ⟨?_, ?_, ?_⟩
      · rcases horigin with ⟨e', he', hr⟩ | hor
        · exact Or.inl ⟨e', List.mem_cons_of_mem _ he', hr⟩
        · rw [hb1] at hor
          have hrb1 : b1 = r := Option.some.inj hor
          rcases hcases with hc | hc
          · exact Or.inr (by rw [← hrb1, hc])
          · exact Or.inl ⟨e, List.mem_cons_self _ _, by rw [← hrb1, hc]⟩
      · intro e' he'
        rcases List.mem_cons.1 he' with rfl | he'
        · exact le_trans (hinit _ hb1) hlee
        · exact hmin e' he'
      · intro b' hb'
        cases Option.some.inj hb'
        exact le_trans (hinit _ hb1) hle0

theorem nearestOne_spec (t : List (Vec3 × ℕ)) (q : Vec3) (r : ℚ × ℕ)
    (h : nearestOne t q = some r) :
    (∃ e ∈ t, r = (squaredEuclidean q e.1, e.2)) ∧
      ∀ e ∈ t, r.1 ≤ squaredEuclidean q e.1 := by
  obtain ⟨ho, hm, _⟩ := nearestFold_spec q t none r h
  refine ⟨?_, hm⟩
  rcases ho with ho | ho
  · exact ho
  · cases ho

/-! ## kd-tree / map synchronization lemmas -/

theorem eraseKey_of_not_mem {α : Type} {p : ℕ × ℕ} {l : List ((ℕ × ℕ) × α)}
    (h : p ∉ l.map Prod.fst) : eraseKey p l = l := by
  apply List.filter_eq_self.2
  intro e he
  have : e.1 ≠ p := fun hc => h (hc ▸ List.mem_map.2 ⟨e, he, rfl⟩)
  simpa using this

theorem kdRemove_mappedAvail (l : List ((ℕ × ℕ) × Vec3)) (p : ℕ × ℕ) (old : Vec3)
    (hnd : (l.map Prod.fst).Nodup) (hy : ∀ q ∈ l.map Prod.fst, q.2 < 4096)
    (hp4 : p.2 < 4096) (hl : lookupA p l = some old) :
    kdRemove old (coord_to_int p.1 p.2) (mappedAvail l) =
      mappedAvail (eraseKey p l) := by
  unfold kdRemove mappedAvail eraseKey
  rw [List.filter_map]
  congr 1
  apply List.filter_congr
  intro e he
  simp only [Function.comp_apply, decide_eq_decide]
  constructor
  · intro hne
    intro hc
    apply hne
    refine ⟨?_, by rw [hc]⟩
    have hmem : (p, e.2) ∈ l := by
      have : e = (p, e.2) := by
        cases e
        simp_all
      exact this ▸ he
    have := mem_lookupA hnd hmem
    rw [hl] at this
    exact (Option.some.inj this).symm
  · intro hne hc
    obtain ⟨hold, hpack⟩ := hc
    have he2 : e.1.2 < 4096 := hy e.1 (List.mem_map.2 ⟨e, he, rfl⟩)
    obtain ⟨h1, h2⟩ := coord_to_int_injOn e.1.1 e.1.2 p.1 p.2 he2 hp4 hpack
    exact hne (Prod.ext h1 h2)

/-- `removePlaced` keeps the tree and the map synchronized and well-formed. -/
theorem removePlaced_sync (st : LoopState) (x y : ℕ)
    (hnd : (st.available.map Prod.fst).Nodup)
    (hy : ∀ q ∈ st.available.map Prod.fst, q.2 < 4096)
    (hcons : Consistent st) :
    Consistent (removePlaced x y st) ∧
      (removePlaced x y st).available = eraseKey (x, y) st.available ∧
      (removePlaced x y st).buf = st.buf := by
  unfold removePlaced
  cases hl : lookupA (x, y) st.available with
  | none =>
    refine ⟨hcons, ?_, rfl⟩
    rw [eraseKey_of_not_mem]
    intro hc
    rw [← lookupA_isSome_iff, hl] at hc
    cases hc
  | some old =>
    refine ⟨?_, rfl, rfl⟩
    unfold Consistent at hcons ⊢
    show (kdRemove old (coord_to_int x y) st.kdtree).Perm
      (mappedAvail (eraseKey (x, y) st.available))
    have h4 : (x, y).2 < 4096 := hy (x, y) (by
      rw [← lookupA_isSome_iff, hl]; rfl)
    rw [← kdRemove_mappedAvail st.available (x, y) old hnd hy h4 hl]
    exact List.Perm.filter _ hcons

/-! ## Frontier characterizations -/

theorem isFrontier_iff (g : Grid) (p : ℕ × ℕ) :
    isFrontier g p ↔ p.1 < g.rows ∧ p.2 < g.cols ∧ g.get p.1 p.2 = none ∧
      ∃ a b : ℕ, ((a : ℤ) - (p.1 : ℤ), (b : ℤ) - (p.2 : ℤ)) ∈ NEIGHBORS ∧
        a < g.rows ∧ b < g.cols ∧ (g.get a b).isSome = true := by
  unfold isFrontier
  refine and_congr_right fun _ => and_congr_right fun _ => and_congr_right fun _ => ?_
  constructor
  · rintro ⟨⟨a, b, v⟩, ht, hv⟩
    obtain ⟨hadj, ha, hb, hveq⟩ := mem_neighbors_iff.1 ht
    exact ⟨a, b, hadj, ha, hb, hveq ▸ hv⟩
  · rintro ⟨a, b, hadj, ha, hb, hsome⟩
    exact ⟨(a, b, g.get a b), mem_neighbors_iff.2 ⟨hadj, ha, hb, rfl⟩, hsome⟩

theorem mem_empty_neighbors_char {g : Grid} {x y a b : ℕ} :
    (a, b) ∈ empty_neighbors x y g ↔
      (((a : ℤ) - (x : ℤ), (b : ℤ) - (y : ℤ)) ∈ NEIGHBORS ∧ a < g.rows ∧
        b < g.cols ∧ g.get a b = none) := by
  rw [mem_empty_neighbors_iff]
  constructor
  · rintro ⟨ht, hnone⟩
    obtain ⟨hadj, ha, hb, _⟩ := mem_neighbors_iff.1 ht
    exact ⟨hadj, ha, hb, hnone⟩
  · rintro ⟨hadj, ha, hb, hnone⟩
    exact ⟨mem_neighbors_iff.2 ⟨hadj, ha, hb, rfl⟩, hnone⟩

theorem get_insert (g : Grid) (x y i a b : ℕ) :
    lookupA (a, b) (insertKey (x, y) i g.cells) =
      if (a, b) = (x, y) then some i else g.get a b := by
  by_cases h : (a, b) = (x, y)
  · rw [if_pos h, h]
    exact lookupA_insertKey_self _ _ _
  · rw [if_neg h]
    exact lookupA_insertKey_ne _ _ h

/-- How the frontier changes when the empty in-range cell `(x, y)` is
filled: the cell itself leaves, the still-empty neighbors of `(x, y)`
enter. -/
theorem frontier_evolution (g : Grid) (x y i : ℕ) (hx : x < g.rows)
    (hy : y < g.cols) (hempty : g.get x y = none) (p : ℕ × ℕ) :
    isFrontier ⟨g.rows, g.cols, insertKey (x, y) i g.cells⟩ p ↔
      ((isFrontier g p ∧ p ≠ (x, y)) ∨
        p ∈ empty_neighbors x y ⟨g.rows, g.cols, insertKey (x, y) i g.cells⟩) := by
  set g2 : Grid := ⟨g.rows, g.cols, insertKey (x, y) i g.cells⟩ with hg2
  have hget2 : ∀ a b : ℕ, g2.get a b = if (a, b) = (x, y) then some i else g.get a b := by
    intro a b
    show lookupA (a, b) (insertKey (x, y) i g.cells) = _
    exact get_insert g x y i a b
  rcases p with ⟨p1, p2⟩
  rw [isFrontier_iff, isFrontier_iff, mem_empty_neighbors_char]
  constructor
  · rintro ⟨hp1, hp2, hpnone, a, b, hadj, ha, hb, hsome⟩
    rw [hget2] at hpnone hsome
    have hpne : (p1, p2) ≠ (x, y) := by
      intro hc
      rw [if_pos hc] at hpnone
      cases hpnone
    rw [if_neg hpne] at hpnone
    by_cases hab : (a, b) = (x, y)
    · right
      have hax : a = x := congrArg Prod.fst hab
      have hby : b = y := congrArg Prod.snd hab
      subst hax
      subst hby
      refine ⟨?_, hp1, hp2, ?_⟩
      · have := NEIGHBORS_neg hadj
        have e1 : (p1 : ℤ) - (a : ℤ) = -((a : ℤ) - (p1 : ℤ)) := by ring
        have e2 : (p2 : ℤ) - (b : ℤ) = -((b : ℤ) - (p2 : ℤ)) := by ring
        rw [e1, e2]
        exact this
      · rw [hget2, if_neg hpne]
        exact hpnone
    · left
      rw [if_neg hab] at hsome
      exact ⟨⟨hp1, hp2, hpnone, a, b, hadj, ha, hb, hsome⟩, hpne⟩
  · rintro (⟨⟨hp1, hp2, hpnone, a, b, hadj, ha, hb, hsome⟩, hpne⟩ |
      ⟨hadj, hp1, hp2, hpnone⟩)
    · refine ⟨hp1, hp2, ?_, a, b, hadj, ha, hb, ?_⟩
      · rw [hget2, if_neg hpne]
        exact hpnone
      · rw [hget2]
        by_cases hab : (a, b) = (x, y)
        · rw [if_pos hab]
          rfl
        · rw [if_neg hab]
          exact hsome
    · rw [hget2] at hpnone
      have hpne : (p1, p2) ≠ (x, y) := by
        intro hc
        rw [if_pos hc] at hpnone
        cases hpnone
      refine ⟨hp1, hp2, by rw [hget2]; exact hpnone, x, y, ?_, hx, hy, ?_⟩
      · have := NEIGHBORS_neg hadj
        have e1 : (x : ℤ) - (p1 : ℤ) = -((p1 : ℤ) - (x : ℤ)) := by ring
        have e2 : (y : ℤ) - (p2 : ℤ) = -((p2 : ℤ) - (y : ℤ)) := by ring
        rw [e1, e2]
        exact this
      · rw [hget2, if_pos rfl]
        rfl

/-! ## Upsert synchronization -/

theorem upsertNeighbor_sync (labs : List Vec3) (st : LoopState) (p : ℕ × ℕ)
    (hnd : (st.available.map Prod.fst).Nodup)
    (hy : ∀ q ∈ st.available.map Prod.fst, q.2 < 4096)
    (hp4 : p.2 < 4096) (hcons : Consistent st) (tc : Vec3)
    (htc : target_color p.1 p.2 st.buf labs = some tc) :
    ∃ st', upsertNeighbor labs st p = some st' ∧
      st'.buf = st.buf ∧
      st'.available = insertKey p tc st.available ∧
      Consistent st' ∧
      (st'.available.map Prod.fst).Nodup := by
  unfold upsertNeighbor
  rw [htc]
  cases hl : lookupA p st.available with
  | none =>
    refine ⟨_, rfl, rfl, rfl, ?_, insertKey_keys_nodup p tc hnd⟩
    unfold Consistent
    show (kdAdd tc (coord_to_int p.1 p.2) st.kdtree).Perm
      (mappedAvail (insertKey p tc st.available))
    have herase : eraseKey p st.available = st.available := by
      apply eraseKey_of_not_mem
      intro hc
      rw [← lookupA_isSome_iff, hl] at hc
      cases hc
    show ((tc, coord_to_int p.1 p.2) :: st.kdtree).Perm _
    unfold mappedAvail insertKey
    rw [List.map_cons, herase]
    exact (hcons.cons _)
  | some old =>
    refine ⟨_, rfl, rfl, rfl, ?_, insertKey_keys_nodup p tc hnd⟩
    unfold Consistent
    show ((tc, coord_to_int p.1 p.2) ::
      kdRemove old (coord_to_int p.1 p.2) st.kdtree).Perm
      (mappedAvail (insertKey p tc st.available))
    have hsub : (kdRemove old (coord_to_int p.1 p.2) st.kdtree).Perm
        (mappedAvail (eraseKey p st.available)) := by
      rw [← kdRemove_mappedAvail st.available p old hnd hy hp4 hl]
      exact List.Perm.filter _ hcons
    unfold mappedAvail insertKey
    rw [List.map_cons]
    exact hsub.cons _

/-! ## The neighbor loop -/

theorem foldUpserts_sync (labs : List Vec3) (g : Grid) (xc yc cc : ℕ)
    (hxc : xc < g.rows) (hyc : yc < g.cols) (hcc : g.get xc yc = some cc)
    (h4 : g.cols ≤ 4096) :
    ∀ (ps : List (ℕ × ℕ)) (st : LoopState),
      st.buf = g →
      (∀ p ∈ ps, p ∈ empty_neighbors xc yc g) →
      (st.available.map Prod.fst).Nodup →
      (∀ q ∈ st.available.map Prod.fst, q.1 < g.rows ∧ q.2 < g.cols) →
      Consistent st →
      ∃ st', foldUpserts labs ps st = some st' ∧
        st'.buf = g ∧
        (st'.available.map Prod.fst).Nodup ∧
        (∀ q ∈ st'.available.map Prod.fst, q.1 < g.rows ∧ q.2 < g.cols) ∧
        Consistent st' ∧
        (∀ q : ℕ × ℕ, (lookupA q st'.available).isSome ↔
          ((lookupA q st.available).isSome ∨ q ∈ ps)) := by
  intro ps
  induction ps with
  | nil =>
    intro st hbuf _ hnd hrange hcons
    exact ⟨st, rfl, hbuf, hnd, hrange, hcons, fun q => by simp⟩
  | cons p ps ih =>
    intro st hbuf hmem hnd hrange hcons
    have hpmem : p ∈ empty_neighbors xc yc g := hmem p (List.mem_cons_self _ _)
    have hpchar := mem_empty_neighbors_char.1 (show (p.1, p.2) ∈ _ from by
      rw [Prod.mk.eta]; exact hpmem)
    obtain ⟨_, hpr, hpc, _⟩ := hpchar
    have hy : ∀ q ∈ st.available.map Prod.fst, q.2 < 4096 :=
      fun q hq => lt_of_lt_of_le (hrange q hq).2 h4
    have htcS : (target_color p.1 p.2 st.buf labs).isSome = true := by
      rw [hbuf]
      exact target_color_isSome g xc yc p.1 p.2 cc labs hxc hyc hcc
        (by rw [Prod.mk.eta]; exact hpmem)
    obtain ⟨tc, htc⟩ := Option.isSome_iff_exists.1 htcS
    obtain ⟨st'', hup, hbuf'', havail'', hcons'', hnd''⟩ :=
      upsertNeighbor_sync labs st p hnd hy (lt_of_lt_of_le hpc h4) hcons tc htc
    have hrange'' : ∀ q ∈ st''.available.map Prod.fst,
        q.1 < g.rows ∧ q.2 < g.cols := by
      intro q hq
      rw [havail''] at hq
      rcases insertKey_keys_mem hq with rfl | hq
      · exact ⟨hpr, hpc⟩
      · exact hrange q hq
    obtain ⟨st', hfold, hbuf', hnd', hrange', hcons', hlook'⟩ :=
      ih st'' (hbuf'' ▸ hbuf) (fun q hq => hmem q (List.mem_cons_of_mem _ hq))
        hnd'' hrange'' hcons''
    refine ⟨st', ?_, hbuf', hnd', hrange', hcons', ?_⟩
    · show foldUpserts labs (p :: ps) st = some st'
      unfold foldUpserts
      rw [hup]
      exact hfold
    · intro q
      rw [hlook' q, havail'']
      by_cases hqp : q = p
      · subst hqp
        rw [lookupA_insertKey_self]
        simp [List.mem_cons]
      · rw [lookupA_insertKey_ne _ _ hqp]
        simp only [List.mem_cons]
        constructor
        · rintro (h | h)
          · exact Or.inl h
          · exact Or.inr (Or.inr h)
        · rintro (h | h | h)
          · exact Or.inl h
          · exact absurd h hqp
          · exact Or.inr h

/-! ## Connectivity: a filled cell and an empty cell force a frontier cell -/

theorem frontier_of_adjacent (g : Grid) (p m : ℕ × ℕ)
    (hm1 : m.1 < g.rows) (hm2 : m.2 < g.cols)
    (hp1 : p.1 < g.rows) (hp2 : p.2 < g.cols)
    (hadj : ((p.1 : ℤ) - (m.1 : ℤ), (p.2 : ℤ) - (m.2 : ℤ)) ∈ NEIGHBORS)
    (hpfill : (g.get p.1 p.2).isSome = true) (hmnone : g.get m.1 m.2 = none) :
    isFrontier g m :=
  ⟨hm1, hm2, hmnone,
    ⟨(p.1, p.2, g.get p.1 p.2), mem_neighbors_iff.2 ⟨hadj, hp1, hp2, rfl⟩, hpfill⟩⟩

/-- Walking one Manhattan step from a filled cell toward an empty cell
either hits an empty cell (a frontier cell) or shortens the distance: hence
a frontier cell always exists while the grid holds both a filled and an
empty in-range cell. -/
theorem frontier_exists_of_mixed (g : Grid) :
    ∀ n : ℕ, ∀ p1 p2 q1 q2 : ℕ,
      ((p1 : ℤ) - (q1 : ℤ)).natAbs + ((p2 : ℤ) - (q2 : ℤ)).natAbs ≤ n →
      p1 < g.rows → p2 < g.cols → q1 < g.rows → q2 < g.cols →
      (g.get p1 p2).isSome = true → g.get q1 q2 = none →
      ∃ e, isFrontier g e := by
  intro n
  induction n with
  | zero =>
    intro p1 p2 q1 q2 hd _ _ _ _ hfill hnone
    have h1 : p1 = q1 ∧ p2 = q2 := by omega
    rw [h1.1, h1.2, hnone] at hfill
    cases hfill
  | succ n ih =>
    intro p1 p2 q1 q2 hd hp1 hp2 hq1 hq2 hfill hnone
    by_cases heq : p1 = q1 ∧ p2 = q2
    · rw [heq.1, heq.2, hnone] at hfill
      cases hfill
    · obtain ⟨m1, m2, hm1, hm2, hadj, hadj', hcloser⟩ :
          ∃ m1 m2 : ℕ, m1 < g.rows ∧ m2 < g.cols ∧
            ((p1 : ℤ) - (m1 : ℤ), (p2 : ℤ) - (m2 : ℤ)) ∈ NEIGHBORS ∧
            ((m1 : ℤ) - (p1 : ℤ), (m2 : ℤ) - (p2 : ℤ)) ∈ NEIGHBORS ∧
            ((m1 : ℤ) - (q1 : ℤ)).natAbs + ((m2 : ℤ) - (q2 : ℤ)).natAbs ≤ n := by
        rcases Nat.lt_trichotomy p1 q1 with h1 | h1 | h1
        · refine ⟨p1 + 1, p2, by omega, hp2, ?_, ?_, by omega⟩ <;>
            · simp only [NEIGHBORS, List.mem_cons, List.not_mem_nil, or_false,
                Prod.mk.injEq]
              omega
        · rcases Nat.lt_trichotomy p2 q2 with h2 | h2 | h2
          · refine ⟨p1, p2 + 1, hp1, by omega, ?_, ?_, by omega⟩ <;>
              · simp only [NEIGHBORS, List.mem_cons, List.not_mem_nil, or_false,
                  Prod.mk.injEq]
                omega
          · exact absurd ⟨h1, h2⟩ heq
          · refine ⟨p1, p2 - 1, hp1, by omega, ?_, ?_, by omega⟩ <;>
              · simp only [NEIGHBORS, List.mem_cons, List.not_mem_nil, or_false,
                  Prod.mk.injEq]
                omega
        · refine ⟨p1 - 1, p2, by omega, hp2, ?_, ?_, by omega⟩ <;>
            · simp only [NEIGHBORS, List.mem_cons, List.not_mem_nil, or_false,
                Prod.mk.injEq]
              omega
      cases hgm : g.get m1 m2 with
      | none =>
        exact ⟨(m1, m2), frontier_of_adjacent g (p1, p2) (m1, m2) hm1 hm2 hp1 hp2
          hadj hfill hgm⟩
      | some c =>
        exact ih m1 m2 q1 q2 hcloser hm1 hm2 hq1 hq2 (by rw [hgm]; rfl) hnone

/-! ## Counting cells -/

theorem keys_length_le (S : ℕ) (keys : List (ℕ × ℕ)) (hnd : keys.Nodup)
    (hr : ∀ p ∈ keys, p.1 < S ∧ p.2 < S) : keys.length ≤ S * S := by
  classical
  have hsub : keys.toFinset ⊆ Finset.range S ×ˢ Finset.range S := by
    intro p hp
    rw [List.mem_toFinset] at hp
    rw [Finset.mem_product, Finset.mem_range, Finset.mem_range]
    exact hr p hp
  have h := Finset.card_le_card hsub
  rw [List.toFinset_card_of_nodup hnd, Finset.card_product, Finset.card_range] at h
  exact h

theorem exists_empty_cell (S : ℕ) (keys : List (ℕ × ℕ))
    (hlen : keys.length < S * S) :
    ∃ p : ℕ × ℕ, p.1 < S ∧ p.2 < S ∧ p ∉ keys := by
  classical
  by_contra h
  push_neg at h
  have hsub : Finset.range S ×ˢ Finset.range S ⊆ keys.toFinset := by
    intro p hp
    rw [Finset.mem_product, Finset.mem_range, Finset.mem_range] at hp
    rw [List.mem_toFinset]
    exact h p hp.1 hp.2
  have hcard := Finset.card_le_card hsub
  rw [Finset.card_product, Finset.card_range] at hcard
  have := List.toFinset_card_le (l := keys)
  omega

theorem all_cells_filled (S : ℕ) (keys : List (ℕ × ℕ)) (hnd : keys.Nodup)
    (hr : ∀ p ∈ keys, p.1 < S ∧ p.2 < S) (hlen : keys.length = S * S) :
    ∀ p : ℕ × ℕ, p.1 < S → p.2 < S → p ∈ keys := by
  classical
  have hsub : keys.toFinset ⊆ Finset.range S ×ˢ Finset.range S := by
    intro p hp
    rw [List.mem_toFinset] at hp
    rw [Finset.mem_product, Finset.mem_range, Finset.mem_range]
    exact hr p hp
  have hcard : (Finset.range S ×ˢ Finset.range S).card ≤ keys.toFinset.card := by
    rw [List.toFinset_card_of_nodup hnd, Finset.card_product, Finset.card_range, hlen]
  have heq := Finset.eq_of_subset_of_card_le hsub hcard
  intro p h1 h2
  have : p ∈ keys.toFinset := by
    rw [heq, Finset.mem_product, Finset.mem_range, Finset.mem_range]
    exact ⟨h1, h2⟩
  rwa [List.mem_toFinset] at this

theorem snd_nodup_inj {α β : Type} [DecidableEq β] {l : List (α × β)}
    (hnd : (l.map Prod.snd).Nodup) {p q : α} {v : β}
    (hp : (p, v) ∈ l) (hq : (q, v) ∈ l) : p = q := by
  induction l with
  | nil => cases hp
  | cons e t ih =>
    simp only [List.map_cons, List.nodup_cons] at hnd
    rcases List.mem_cons.1 hp with hp1 | hp1 <;> rcases List.mem_cons.1 hq with hq1 | hq1
    · exact congrArg Prod.fst (hp1.trans hq1.symm)
    · exfalso
      apply hnd.1
      have : e.2 = v := congrArg Prod.snd hp1.symm
      rw [this]
      exact List.mem_map.2 ⟨(q, v), hq1, rfl⟩
    · exfalso
      apply hnd.1
      have : e.2 = v := congrArg Prod.snd hq1.symm
      rw [this]
      exact List.mem_map.2 ⟨(p, v), hp1, rfl⟩
    · exact ih hnd.2 hp1 hq1

/-! ## Invariant basics -/

theorem Inv_cells_length {S i : ℕ} {st : LoopState} (h : Inv S i st) :
    st.buf.cells.length = i := by
  have hv := h.cells_vals
  have := congrArg List.length hv
  simpa using this

theorem Inv_zero_cells {S : ℕ} {st : LoopState} (h : Inv S 0 st) :
    st.buf.cells = [] := by
  have := Inv_cells_length h
  exact List.length_eq_zero.1 this

theorem Inv_zero_avail {S : ℕ} {st : LoopState} (h : Inv S 0 st) :
    st.available = [] := by
  cases ha : st.available with
  | nil => rfl
  | cons e t =>
    exfalso
    have hmem : e.1 ∈ st.available.map Prod.fst := by
      rw [ha, List.map_cons]
      exact List.mem_cons_self _ _
    have hsome := (lookupA_isSome_iff e.1 st.available).2 hmem
    obtain ⟨_, _, _, t', ht', hsome'⟩ := (h.avail_frontier e.1).1 hsome
    rcases t' with ⟨a, b, v⟩
    obtain ⟨_, _, _, hveq⟩ := mem_neighbors_iff.1 ht'
    have hnone : st.buf.get a b = none := by
      show lookupA (a, b) st.buf.cells = none
      rw [Inv_zero_cells h]
      rfl
    rw [hveq, hnone] at hsome'
    cases hsome'

theorem Inv_zero_tree {S : ℕ} {st : LoopState} (h : Inv S 0 st) :
    st.kdtree = [] := by
  have hp := h.tree_perm
  rw [Inv_zero_avail h] at hp
  exact hp.eq_nil

theorem Inv_init (S : ℕ) : Inv S 0 (initState S) := by
  refine ⟨rfl, rfl, by simp [initState], ?_, by simp [initState],
    by simp [initState], ?_, ?_, by simp [initState, mappedAvail]⟩
  · intro p hp
    simp [initState] at hp
  · intro p hp
    simp [initState] at hp
  · intro p
    constructor
    · intro hsome
      simp [initState, lookupA] at hsome
    · rintro ⟨_, _, _, ⟨a, b, v⟩, ht, hsome⟩
      obtain ⟨_, _, _, hveq⟩ := mem_neighbors_iff.1 ht
      have hnone : (initState S).buf.get a b = none := rfl
      rw [hveq, hnone] at hsome
      cases hsome

/-! ## Nearest-neighbor query against a consistent frontier index -/

theorem nearest_gives_min (st : LoopState) (lab : Vec3)
    (hnd : (st.available.map Prod.fst).Nodup)
    (hy : ∀ q ∈ st.available.map Prod.fst, q.2 < 4096)
    (hcons : Consistent st) (hne : st.available ≠ []) :
    ∃ (q : ℕ × ℕ) (v : Vec3) (r : ℚ × ℕ),
      nearestOne st.kdtree lab = some r ∧ int_to_coord r.2 = q ∧
      lookupA q st.available = some v ∧ r.1 = squaredEuclidean lab v ∧
      ∀ e ∈ st.available, squaredEuclidean lab v ≤ squaredEuclidean lab e.2 := by
  have htree_ne : st.kdtree ≠ [] := by
    intro hnil
    have hp : st.kdtree.Perm (mappedAvail st.available) := hcons
    rw [hnil] at hp
    have h0 := hp.symm.eq_nil
    unfold mappedAvail at h0
    rw [List.map_eq_nil] at h0
    exact hne h0
  obtain ⟨r, hr⟩ := Option.isSome_iff_exists.1 (nearestOne_isSome st.kdtree lab htree_ne)
  obtain ⟨⟨e0, he0, hre⟩, hmin⟩ := nearestOne_spec st.kdtree lab r hr
  have he0' : e0 ∈ mappedAvail st.available := hcons.mem_iff.1 he0
  obtain ⟨a0, ha0, hma⟩ := List.mem_map.1 he0'
  have hq4 : a0.1.2 < 4096 := hy a0.1 (List.mem_map.2 ⟨a0, ha0, rfl⟩)
  refine ⟨a0.1, a0.2, r, hr, ?_, ?_, ?_, ?_⟩
  · rw [hre, ← hma]
    show int_to_coord (coord_to_int a0.1.1 a0.1.2) = a0.1
    rw [int_to_coord_coord_to_int a0.1.1 a0.1.2 hq4]
  · have : (a0.1, a0.2) ∈ st.available := by
      rw [Prod.mk.eta]
      exact ha0
    exact mem_lookupA hnd this
  · rw [hre, ← hma]
  · intro e he
    have hmem : (e.2, coord_to_int e.1.1 e.1.2) ∈ st.kdtree :=
      hcons.mem_iff.2 (List.mem_map.2 ⟨e, he, rfl⟩)
    have := hmin _ hmem
    have hr1 : r.1 = squaredEuclidean lab a0.2 := by rw [hre, ← hma]
    rw [hr1] at this
    exact this

/-! ## The chosen coordinate of an iteration -/

theorem chooseCoord_spec (lab : Vec3) (S i : ℕ) (st : LoopState)
    (hS0 : 0 < S) (hS : S ≤ 4096) (hInv : Inv S i st) (hi : i < S * S) :
    ∃ x y, chooseCoord i lab st = some (x, y) ∧ st.buf.get x y = none ∧
      x < S ∧ y < S := by
  by_cases hi0 : i = 0
  · subst hi0
    refine ⟨st.buf.rows / 2, st.buf.cols / 2, ?_, ?_, ?_, ?_⟩
    · unfold chooseCoord
      rw [if_pos rfl]
    · show lookupA _ st.buf.cells = none
      rw [Inv_zero_cells hInv]
      rfl
    · rw [hInv.rows_eq]
      exact Nat.div_lt_self hS0 (by norm_num)
    · rw [hInv.cols_eq]
      exact Nat.div_lt_self hS0 (by norm_num)
  · have hipos : 0 < i := Nat.pos_of_ne_zero hi0
    have hlen : st.buf.cells.length = i := Inv_cells_length hInv
    obtain ⟨e, he⟩ := List.exists_mem_of_ne_nil st.buf.cells
      (by intro hc; rw [hc] at hlen; simp at hlen; omega)
    have hefill : st.buf.get e.1.1 e.1.2 = some e.2 := by
      show lookupA e.1 st.buf.cells = some e.2
      exact mem_lookupA hInv.cells_nodup (by rw [Prod.mk.eta]; exact he)
    have herange := hInv.cells_range e.1 (List.mem_map.2 ⟨e, he, rfl⟩)
    obtain ⟨p0, hp01, hp02, hp0mem⟩ := exists_empty_cell S (st.buf.cells.map Prod.fst)
      (by rw [List.length_map, hlen]; exact hi)
    have hp0none : st.buf.get p0.1 p0.2 = none := by
      show lookupA p0 st.buf.cells = none
      rw [lookupA_eq_none_iff]
      exact hp0mem
    obtain ⟨f, hf⟩ := frontier_exists_of_mixed st.buf
      (((e.1.1 : ℤ) - (p0.1 : ℤ)).natAbs + ((e.1.2 : ℤ) - (p0.2 : ℤ)).natAbs)
      e.1.1 e.1.2 p0.1 p0.2 (le_refl _)
      (by rw [hInv.rows_eq]; exact herange.1) (by rw [hInv.cols_eq]; exact herange.2)
      (by rw [hInv.rows_eq]; exact hp01) (by rw [hInv.cols_eq]; exact hp02)
      (by rw [hefill]; rfl) hp0none
    have hfsome := (hInv.avail_frontier f).2 hf
    have hne : st.available ≠ [] := by
      intro hc
      rw [hc] at hfsome
      cases hfsome
    obtain ⟨q, v, r, hr, hunpack, hlook, _, _⟩ := nearest_gives_min st lab
      hInv.avail_nodup
      (fun q hq => lt_of_lt_of_le (hInv.avail_range q hq).2 hS) hInv.tree_perm hne
    have hqfront := (hInv.avail_frontier q).1 (by rw [hlook]; rfl)
    refine ⟨q.1, q.2, ?_, hqfront.2.2.1, ?_, ?_⟩
    · unfold chooseCoord
      rw [if_neg hi0, hr]
      show some (int_to_coord r.2) = some (q.1, q.2)
      rw [hunpack, Prod.mk.eta]
    · rw [← hInv.rows_eq]
      exact hqfront.1
    · rw [← hInv.cols_eq]
      exact hqfront.2.1

/-! ## One loop iteration preserves the invariant -/

theorem step_eq_of_choose (labs : List Vec3) (lab : Vec3) (i : ℕ)
    (st : LoopState) (x y : ℕ) (h : chooseCoord i lab st = some (x, y)) :
    step labs i lab st =
      match (removePlaced x y st).buf.set x y i with
      | none => none
      | some g2 =>
        foldUpserts labs (empty_neighbors x y g2)
          { removePlaced x y st with buf := g2 } := by
  unfold step
  rw [h]

theorem step_spec (labs : List Vec3) (lab : Vec3) (S i : ℕ) (st : LoopState)
    (hS0 : 0 < S) (hS : S ≤ 4096) (hInv : Inv S i st) (hi : i < S * S) :
    ∃ st', step labs i lab st = some st' ∧ Inv S (i + 1) st' ∧
      (∀ p v, lookupA p st.buf.cells = some v → lookupA p st'.buf.cells = some v) ∧
      ∃ x y, chooseCoord i lab st = some (x, y) ∧ st.buf.get x y = none ∧
        x < S ∧ y < S ∧ st'.buf.get x y = some i := by
  obtain ⟨x, y, hchoose, hempty, hx, hy⟩ := chooseCoord_spec lab S i st hS0 hS hInv hi
  have hyall : ∀ q ∈ st.available.map Prod.fst, q.2 < 4096 :=
    fun q hq => lt_of_lt_of_le (hInv.avail_range q hq).2 hS
  obtain ⟨hcons1, havail1, hbuf1⟩ :=
    removePlaced_sync st x y hInv.avail_nodup hyall hInv.tree_perm
  have hkey : (x, y) ∉ st.buf.cells.map Prod.fst := by
    rw [← lookupA_eq_none_iff]
    exact hempty
  have hset : (removePlaced x y st).buf.set x y i =
      some ⟨st.buf.rows, st.buf.cols, insertKey (x, y) i st.buf.cells⟩ := by
    rw [hbuf1]
    unfold Grid.set
    rw [if_pos ⟨by rw [hInv.rows_eq]; exact hx, by rw [hInv.cols_eq]; exact hy⟩]
  have hg2get : ∀ a b : ℕ,
      (⟨st.buf.rows, st.buf.cols, insertKey (x, y) i st.buf.cells⟩ : Grid).get a b =
        if (a, b) = (x, y) then some i else st.buf.get a b :=
    fun a b => get_insert st.buf x y i a b
  have hcells2 : insertKey (x, y) i st.buf.cells = ((x, y), i) :: st.buf.cells := by
    unfold insertKey
    rw [eraseKey_of_not_mem hkey]
  obtain ⟨st', hfold, hbuf', hnd', hrange', hcons', hlook'⟩ :=
    foldUpserts_sync labs ⟨st.buf.rows, st.buf.cols, insertKey (x, y) i st.buf.cells⟩
      x y i (by show x < st.buf.rows; rw [hInv.rows_eq]; exact hx)
      (by show y < st.buf.cols; rw [hInv.cols_eq]; exact hy)
      (by rw [hg2get, if_pos rfl])
      (by show st.buf.cols ≤ 4096; rw [hInv.cols_eq]; exact hS)
      (empty_neighbors x y ⟨st.buf.rows, st.buf.cols, insertKey (x, y) i st.buf.cells⟩)
      { removePlaced x y st with
        buf := ⟨st.buf.rows, st.buf.cols, insertKey (x, y) i st.buf.cells⟩ }
      rfl (fun p hp => hp)
      (by
        show ((removePlaced x y st).available.map Prod.fst).Nodup
        rw [havail1]
        exact eraseKey_keys_nodup hInv.avail_nodup)
      (by
        show ∀ q ∈ (removePlaced x y st).available.map Prod.fst, _ ∧ _
        intro q hq
        rw [havail1] at hq
        have := hInv.avail_range q (eraseKey_keys_mem hq)
        show q.1 < st.buf.rows ∧ q.2 < st.buf.cols
        rw [hInv.rows_eq, hInv.cols_eq]
        exact this)
      (by
        show (removePlaced x y st).kdtree.Perm
          (mappedAvail (removePlaced x y st).available)
        exact hcons1)
  refine ⟨st', ?_, ?_, ?_, x, y, hchoose, hempty, hx, hy, ?_⟩
  · rw [step_eq_of_choose labs lab i st x y hchoose, hset]
    exact hfold
  · refine ⟨?_, ?_, ?_, ?_, ?_, hnd', ?_, ?_, hcons'⟩
    · rw [hbuf']
      exact hInv.rows_eq
    · rw [hbuf']
      exact hInv.cols_eq
    · rw [hbuf']
      show ((insertKey (x, y) i st.buf.cells).map Prod.fst).Nodup
      rw [hcells2, List.map_cons]
      exact List.nodup_cons.2 ⟨hkey, hInv.cells_nodup⟩
    · rw [hbuf']
      show ∀ p ∈ (insertKey (x, y) i st.buf.cells).map Prod.fst, p.1 < S ∧ p.2 < S
      rw [hcells2, List.map_cons]
      intro p hp
      rcases List.mem_cons.1 hp with rfl | hp
      · exact ⟨hx, hy⟩
      · exact hInv.cells_range p hp
    · rw [hbuf']
      show (insertKey (x, y) i st.buf.cells).map Prod.snd = (List.range (i + 1)).reverse
      rw [hcells2, List.map_cons, hInv.cells_vals, List.range_succ,
        List.reverse_append]
      rfl
    · intro q hq
      have h2 : q.1 < st.buf.rows ∧ q.2 < st.buf.cols := hrange' q hq
      rw [hInv.rows_eq, hInv.cols_eq] at h2
      exact h2
    · intro p
      rw [hlook' p, hbuf']
      have hmid : (lookupA p { removePlaced x y st with
          buf := (⟨st.buf.rows, st.buf.cols, insertKey (x, y) i st.buf.cells⟩ :
            Grid) }.available).isSome = true ↔
          (isFrontier st.buf p ∧ p ≠ (x, y)) := by
        show (lookupA p (removePlaced x y st).available).isSome = true ↔ _
        rw [havail1]
        by_cases hp : p = (x, y)
        · subst hp
          rw [lookupA_eraseKey_self]
          simp
        · rw [lookupA_eraseKey_ne _ hp, hInv.avail_frontier p]
          simp [hp]
      rw [hmid]
      exact (frontier_evolution st.buf x y i (by rw [hInv.rows_eq]; exact hx)
        (by rw [hInv.cols_eq]; exact hy) hempty p).symm
  · intro p v hpv
    rw [hbuf']
    show lookupA p (insertKey (x, y) i st.buf.cells) = some v
    have hpne : p ≠ (x, y) := by
      intro hc
      rw [hc] at hpv
      have hnone : lookupA (x, y) st.buf.cells = none := hempty
      rw [hnone] at hpv
      cases hpv
    rw [lookupA_insertKey_ne _ _ hpne]
    exact hpv
  · rw [hbuf']
    rw [hg2get, if_pos rfl]

/-- A successful iteration from an invariant state: the grid cannot be full
(the query would have no answer), so `step_spec` applies. -/
theorem step_some_spec (labs : List Vec3) (lab : Vec3) (S i : ℕ)
    (st st' : LoopState) (hS0 : 0 < S) (hS : S ≤ 4096) (hInv : Inv S i st)
    (hstep : step labs i lab st = some st') :
    Inv S (i + 1) st' ∧
      (∀ p v, lookupA p st.buf.cells = some v → lookupA p st'.buf.cells = some v) ∧
      ∃ x y, chooseCoord i lab st = some (x, y) ∧ st.buf.get x y = none ∧
        x < S ∧ y < S ∧ st'.buf.get x y = some i := by
  have hi : i < S * S := by
    by_contra hge
    push_neg at hge
    have hlen := Inv_cells_length hInv
    have hle : i ≤ S * S := by
      have h := keys_length_le S (st.buf.cells.map Prod.fst) hInv.cells_nodup
        hInv.cells_range
      rw [List.length_map, hlen] at h
      exact h
    have hall := all_cells_filled S (st.buf.cells.map Prod.fst) hInv.cells_nodup
      hInv.cells_range (by rw [List.length_map, hlen]; omega)
    have hav : ∀ p : ℕ × ℕ, ¬ (lookupA p st.available).isSome = true := by
      intro p hp
      obtain ⟨h1, h2, h3, _⟩ := (hInv.avail_frontier p).1 hp
      have hp1 : p.1 < S := by rw [← hInv.rows_eq]; exact h1
      have hp2 : p.2 < S := by rw [← hInv.cols_eq]; exact h2
      have hmem := hall p hp1 hp2
      rw [← lookupA_isSome_iff] at hmem
      have h3' : lookupA p st.buf.cells = none := h3
      rw [h3'] at hmem
      cases hmem
    have havnil : st.available = [] := by
      cases hc : st.available with
      | nil => rfl
      | cons e t =>
        exfalso
        apply hav e.1
        rw [lookupA_isSome_iff, hc, List.map_cons]
        exact List.mem_cons_self _ _
    have htreenil : st.kdtree = [] := by
      have hp := hInv.tree_perm
      rw [havnil] at hp
      exact hp.eq_nil
    have hi0 : i ≠ 0 := by
      have : 0 < S * S := Nat.mul_pos hS0 hS0
      omega
    have hcc : chooseCoord i lab st = none := by
      unfold chooseCoord
      rw [if_neg hi0, htreenil]
      rfl
    have hnone : step labs i lab st = none := by
      unfold step
      rw [hcc]
    rw [hnone] at hstep
    cases hstep
  obtain ⟨st'', hsome, hInv', hpersist, hext⟩ :=
    step_spec labs lab S i st hS0 hS hInv hi
  rw [hstep] at hsome
  cases Option.some.inj hsome
  exact ⟨hInv', hpersist, hext⟩

/-! ## The whole loop -/

theorem runIters_inv (labs : List Vec3) (S : ℕ) (hS0 : 0 < S) (hS : S ≤ 4096) :
    ∀ (l : List Vec3) (i : ℕ) (st : LoopState), Inv S i st →
      i + l.length ≤ S * S →
      ∃ st', runIters labs (List.enumFrom i l) st = some st' ∧
        Inv S (i + l.length) st' := by
  intro l
  induction l with
  | nil =>
    intro i st h _
    exact ⟨st, rfl, by simpa using h⟩
  | cons a t ih =>
    intro i st h hle
    obtain ⟨st1, hstep, hinv1, _, _⟩ := step_spec labs a S i st hS0 hS h
      (by simp only [List.length_cons] at hle; omega)
    obtain ⟨st', hrun, hinv'⟩ := ih (i + 1) st1 hinv1
      (by simp only [List.length_cons] at hle; omega)
    refine ⟨st', ?_, ?_⟩
    · rw [List.enumFrom_cons]
      show runIters labs ((i, a) :: List.enumFrom (i + 1) t) st = some st'
      simp only [runIters, hstep]
      exact hrun
    · have he : i + (a :: t).length = (i + 1) + t.length := by
        simp only [List.length_cons]
        omega
      rw [he]
      exact hinv'

theorem runIters_some_spec (labs : List Vec3) (S : ℕ) (hS0 : 0 < S)
    (hS : S ≤ 4096) :
    ∀ (l : List Vec3) (i : ℕ) (st st' : LoopState), Inv S i st →
      runIters labs (List.enumFrom i l) st = some st' →
      Inv S (i + l.length) st' ∧
        ∀ p v, lookupA p st.buf.cells = some v → lookupA p st'.buf.cells = some v := by
  intro l
  induction l with
  | nil =>
    intro i st st' h hrun
    have he : st = st' := Option.some.inj hrun
    subst he
    exact ⟨by simpa using h, fun p v hv => hv⟩
  | cons a t ih =>
    intro i st st' h hrun
    rw [List.enumFrom_cons] at hrun
    cases hstep : step labs i a st with
    | none =>
      simp only [runIters, hstep] at hrun
      cases hrun
    | some st1 =>
      simp only [runIters, hstep] at hrun
      obtain ⟨hinv1, hpersist1, _⟩ := step_some_spec labs a S i st st1 hS0 hS h hstep
      obtain ⟨hinv', hpersist'⟩ := ih (i + 1) st1 st' hinv1 hrun
      refine ⟨?_, fun p v hv => hpersist' p v (hpersist1 p v hv)⟩
      have he : i + (a :: t).length = (i + 1) + t.length := by
        simp only [List.length_cons]
        omega
      rw [he]
      exact hinv'

theorem run_bijection (S : ℕ) (labs : List Vec3) (hS0 : 0 < S) (hS : S ≤ 4096)
    (hlen : labs.length = S * S) :
    ∃ st, run S labs = some st ∧
      (∀ x y, x < S → y < S → ∃ i, i < S * S ∧ st.buf.get x y = some i) ∧
      (∀ i, i < S * S → ∃ x y, x < S ∧ y < S ∧ st.buf.get x y = some i) ∧
      (∀ x y x' y' i, st.buf.get x y = some i → st.buf.get x' y' = some i →
        x = x' ∧ y = y') := by
  obtain ⟨st, hrun, hinv⟩ := runIters_inv labs S hS0 hS labs 0 (initState S)
    (Inv_init S) (by rw [Nat.zero_add, hlen])
  have hrun' : run S labs = some st := by
    unfold run
    rw [List.enum_eq_enumFrom]
    exact hrun
  have hzl : 0 + labs.length = S * S := by rw [Nat.zero_add, hlen]
  rw [hzl] at hinv
  have hlen_cells : st.buf.cells.length = S * S := Inv_cells_length hinv
  have hall := all_cells_filled S (st.buf.cells.map Prod.fst) hinv.cells_nodup
    hinv.cells_range (by rw [List.length_map, hlen_cells])
  have hvals := hinv.cells_vals
  refine ⟨st, hrun', ?_, ?_, ?_⟩
  · intro x y hx hy
    have hmem := hall (x, y) hx hy
    have hsome := (lookupA_isSome_iff (x, y) st.buf.cells).2 hmem
    obtain ⟨v, hv⟩ := Option.isSome_iff_exists.1 hsome
    refine ⟨v, ?_, hv⟩
    have hvmem : v ∈ st.buf.cells.map Prod.snd :=
      List.mem_map.2 ⟨((x, y), v), lookupA_mem hv, rfl⟩
    rw [hvals, List.mem_reverse, List.mem_range] at hvmem
    exact hvmem
  · intro i hi
    have hmem : i ∈ st.buf.cells.map Prod.snd := by
      rw [hvals, List.mem_reverse, List.mem_range]
      exact hi
    obtain ⟨e, he, hei⟩ := List.mem_map.1 hmem
    have hrange := hinv.cells_range e.1 (List.mem_map.2 ⟨e, he, rfl⟩)
    refine ⟨e.1.1, e.1.2, hrange.1, hrange.2, ?_⟩
    show lookupA (e.1.1, e.1.2) st.buf.cells = some i
    rw [Prod.mk.eta, ← hei]
    exact mem_lookupA hinv.cells_nodup (by rw [Prod.mk.eta]; exact he)
  · intro x y x' y' i h1 h2
    have hnd : (st.buf.cells.map Prod.snd).Nodup := by
      rw [hvals]
      exact List.nodup_reverse.2 (List.nodup_range _)
    have heq := snd_nodup_inj hnd (lookupA_mem h1) (lookupA_mem h2)
    exact ⟨congrArg Prod.fst heq, congrArg Prod.snd heq⟩

/-- C1: over the full catalog (`N = 2^24`, `S = 2^12`) the loop terminates
with every cell filled and the grid values a bijection onto `{0, …, N−1}`. -/
theorem C1_grid_bijection (labs : List Vec3) (hlen : labs.length = 2 ^ 24) :
    ∃ st, run 4096 labs = some st ∧
      (∀ x y, x < 4096 → y < 4096 → ∃ i, i < 2 ^ 24 ∧ st.buf.get x y = some i) ∧
      (∀ i, i < 2 ^ 24 → ∃ x y, x < 4096 ∧ y < 4096 ∧ st.buf.get x y = some i) ∧
      (∀ x y x' y' i, st.buf.get x y = some i → st.buf.get x' y' = some i →
        x = x' ∧ y = y') := by
  have h1 : (4096 : ℕ) * 4096 = 2 ^ 24 := by norm_num
  have h := run_bijection 4096 labs (by norm_num) (le_refl _)
    (by rw [hlen, ← h1])
  rw [h1] at h
  exact h

theorem C1_grid_bijection_witness :
    ∃ st, run 4096 (List.replicate (2 ^ 24) ((0 : ℚ), (0 : ℚ), (0 : ℚ))) =
        some st ∧
      (∀ x y, x < 4096 → y < 4096 → ∃ i, i < 2 ^ 24 ∧ st.buf.get x y = some i) ∧
      (∀ i, i < 2 ^ 24 → ∃ x y, x < 4096 ∧ y < 4096 ∧ st.buf.get x y = some i) ∧
      (∀ x y x' y' i, st.buf.get x y = some i → st.buf.get x' y' = some i →
        x = x' ∧ y = y') :=
  C1_grid_bijection (List.replicate (2 ^ 24) ((0 : ℚ), (0 : ℚ), (0 : ℚ)))
    (List.length_replicate _ _)

/-! ## Loop prefixes -/

theorem enumFrom_take {α : Type} (l : List α) :
    ∀ i n : ℕ, (List.enumFrom i l).take n = List.enumFrom i (l.take n) := by
  induction l with
  | nil =>
    intro i n
    simp
  | cons a t ih =>
    intro i n
    cases n with
    | zero => simp
    | succ n =>
      rw [List.enumFrom_cons, List.take_succ_cons, List.take_succ_cons,
        List.enumFrom_cons, ih]

theorem runN_eq (S : ℕ) (labs : List Vec3) (n : ℕ) :
    runN S labs n = runIters labs (List.enumFrom 0 (labs.take n)) (initState S) := by
  unfold runN
  rw [List.enum_eq_enumFrom, enumFrom_take]

theorem runIters_append (labs : List Vec3) :
    ∀ (l1 l2 : List (ℕ × Vec3)) (st : LoopState),
      runIters labs (l1 ++ l2) st =
        match runIters labs l1 st with
        | none => none
        | some st1 => runIters labs l2 st1 := by
  intro l1
  induction l1 with
  | nil =>
    intro l2 st
    rfl
  | cons e t ih =>
    intro l2 st
    show runIters labs (e :: (t ++ l2)) st = _
    cases hstep : step labs e.1 e.2 st with
    | none => simp only [runIters, hstep]
    | some st1 =>
      simp only [runIters, hstep]
      exact ih l2 st1

theorem runN_inv (S : ℕ) (labs : List Vec3) (n : ℕ) (st : LoopState)
    (hS0 : 0 < S) (hS : S ≤ 4096) (h : runN S labs n = some st) :
    Inv S (labs.take n).length st := by
  rw [runN_eq] at h
  have hspec := runIters_some_spec labs S hS0 hS (labs.take n) 0 (initState S) st
    (Inv_init S) h
  have := hspec.1
  rwa [Nat.zero_add] at this

/-- C5: once a cell is filled it persists unchanged through every later
iteration, and every successful iteration writes its catalog index into a
cell that is empty at that moment (the chosen coordinate). -/
theorem C5_write_once (S : ℕ) (labs : List Vec3) (hS0 : 0 < S)
    (hS : S ≤ 4096) :
    (∀ (m n : ℕ) (stm stn : LoopState), m ≤ n →
      runN S labs m = some stm → runN S labs n = some stn →
      ∀ (p : ℕ × ℕ) (v : ℕ), stm.buf.get p.1 p.2 = some v →
        stn.buf.get p.1 p.2 = some v) ∧
      (∀ (n : ℕ) (st st' : LoopState) (lab : Vec3), n < labs.length →
        runN S labs n = some st → step labs n lab st = some st' →
        ∃ x y, chooseCoord n lab st = some (x, y) ∧ st.buf.get x y = none ∧
          st'.buf.get x y = some n) := by
  constructor
  · intro m n stm stn hmn hm hn p v hv
    have hInvm : Inv S (labs.take m).length stm := runN_inv S labs m stm hS0 hS hm
    have hsp : labs.take m ++ (labs.take n).drop m = labs.take n := by
      have h1 : labs.take m = (labs.take n).take m := by
        rw [List.take_take]
        congr 1
        omega
      rw [h1]
      exact List.take_append_drop m (labs.take n)
    rw [runN_eq, ← hsp, List.enumFrom_append, runIters_append] at hn
    rw [runN_eq] at hm
    rw [hm] at hn
    have hn' : runIters labs
        (List.enumFrom (0 + (labs.take m).length) ((labs.take n).drop m)) stm =
        some stn := hn
    rw [Nat.zero_add] at hn'
    have hspec := runIters_some_spec labs S hS0 hS ((labs.take n).drop m)
      (labs.take m).length stm stn hInvm hn'
    exact hspec.2 p v hv
  · intro n st st' lab hn hrun hstep
    have hInvst : Inv S (labs.take n).length st := runN_inv S labs n st hS0 hS hrun
    have hlen : (labs.take n).length = n := by
      rw [List.length_take]
      omega
    rw [hlen] at hInvst
    obtain ⟨_, _, x, y, hchoose, hempty, _, _, hset⟩ :=
      step_some_spec labs lab S n st st' hS0 hS hInvst hstep
    exact ⟨x, y, hchoose, hempty, hset⟩

theorem C5_write_once_witness :
    ((⟨[], [], ⟨1, 1, [((0, 0), 0)]⟩⟩ : LoopState).buf.get 0 0 = some 0) ∧
      ∃ x y, chooseCoord 0 ((0 : ℚ), (0 : ℚ), (0 : ℚ))
          (initState 1) = some (x, y) ∧
        (initState 1).buf.get x y = none ∧
        (⟨[], [], ⟨1, 1, [((0, 0), 0)]⟩⟩ : LoopState).buf.get x y = some 0 :=
  ⟨(C5_write_once 1 [((0 : ℚ), (0 : ℚ), (0 : ℚ))] (by decide) (by decide)).1
      1 1 ⟨[], [], ⟨1, 1, [((0, 0), 0)]⟩⟩ ⟨[], [], ⟨1, 1, [((0, 0), 0)]⟩⟩
      (le_refl 1) (by decide) (by decide) (0, 0) 0 (by decide),
    (C5_write_once 1 [((0 : ℚ), (0 : ℚ), (0 : ℚ))] (by decide) (by decide)).2
      0 (initState 1) ⟨[], [], ⟨1, 1, [((0, 0), 0)]⟩⟩ ((0 : ℚ), (0 : ℚ), (0 : ℚ))
      (by decide) (by decide) (by decide)⟩

theorem consistent_of_eq {st : LoopState}
    (h : st.kdtree = mappedAvail st.available) : Consistent st := by
  show st.kdtree.Perm (mappedAvail st.available)
  rw [h]

/-- C2: frontier/index synchronization. The two frontier operations of the
loop — the removal performed on the placed cell and each neighbor upsert —
preserve the consistency between the `available` map and the kd-tree: the
tree holds exactly one entry per map key, stored under the packed
coordinate with the map's current value (the initial state is consistent,
so every observable point of the loop is). The last conjunct spells the
key-set/value agreement out. -/
theorem C2_frontier_index_sync :
    (∀ S : ℕ, Consistent (initState S)) ∧
      (∀ (st : LoopState) (x y : ℕ),
        (st.available.map Prod.fst).Nodup →
        (∀ q ∈ st.available.map Prod.fst, q.2 < 4096) →
        Consistent st →
        Consistent (removePlaced x y st) ∧
          ((removePlaced x y st).available.map Prod.fst).Nodup ∧
          (∀ q ∈ (removePlaced x y st).available.map Prod.fst, q.2 < 4096)) ∧
      (∀ (labs : List Vec3) (st st' : LoopState) (p : ℕ × ℕ),
        (st.available.map Prod.fst).Nodup →
        (∀ q ∈ st.available.map Prod.fst, q.2 < 4096) →
        p.2 < 4096 → Consistent st → upsertNeighbor labs st p = some st' →
        Consistent st' ∧ (st'.available.map Prod.fst).Nodup ∧
          (∀ q ∈ st'.available.map Prod.fst, q.2 < 4096)) ∧
      (∀ st : LoopState, (st.available.map Prod.fst).Nodup → Consistent st →
        (∀ (p : ℕ × ℕ) (v : Vec3), lookupA p st.available = some v →
          (v, coord_to_int p.1 p.2) ∈ st.kdtree) ∧
          (∀ e ∈ st.kdtree, ∃ (p : ℕ × ℕ) (v : Vec3),
            lookupA p st.available = some v ∧ e = (v, coord_to_int p.1 p.2))) := by
  refine ⟨?_, ?_, ?_, ?_⟩
  · intro S
    show (initState S).kdtree.Perm (mappedAvail (initState S).available)
    exact List.Perm.refl _
  · intro st x y hnd hy hcons
    obtain ⟨hcons', havail', _⟩ := removePlaced_sync st x y hnd hy hcons
    refine ⟨hcons', ?_, ?_⟩
    · rw [havail']
      exact eraseKey_keys_nodup hnd
    · intro q hq
      rw [havail'] at hq
      exact hy q (eraseKey_keys_mem hq)
  · intro labs st st' p hnd hy hp4 hcons hup
    cases htc : target_color p.1 p.2 st.buf labs with
    | none =>
      exfalso
      unfold upsertNeighbor at hup
      rw [htc] at hup
      cases hup
    | some tc =>
      obtain ⟨st'', hup'', _, havail'', hcons'', hnd''⟩ :=
        upsertNeighbor_sync labs st p hnd hy hp4 hcons tc htc
      rw [hup] at hup''
      cases Option.some.inj hup''
      refine ⟨hcons'', hnd'', ?_⟩
      intro q hq
      rw [havail''] at hq
      rcases insertKey_keys_mem hq with rfl | hq
      · exact hp4
      · exact hy q hq
  · intro st hnd hcons
    constructor
    · intro p v hv
      have hmem : (p, v) ∈ st.available := lookupA_mem hv
      have : (v, coord_to_int p.1 p.2) ∈ mappedAvail st.available :=
        List.mem_map.2 ⟨(p, v), hmem, rfl⟩
      exact (List.Perm.mem_iff hcons).2 this
    · intro e he
      have : e ∈ mappedAvail st.available := (List.Perm.mem_iff hcons).1 he
      obtain ⟨a, ha, hma⟩ := List.mem_map.1 this
      exact ⟨a.1, a.2, mem_lookupA hnd (by rw [Prod.mk.eta]; exact ha), hma.symm⟩

theorem C2_frontier_index_sync_witness :
    Consistent (initState 4096) ∧
      (Consistent (removePlaced 0 1
          (⟨[((1, 2, 3), 1)], [((0, 1), (1, 2, 3))], ⟨2, 2, [((0, 0), 0)]⟩⟩ :
            LoopState)) ∧
        ((removePlaced 0 1
          (⟨[((1, 2, 3), 1)], [((0, 1), (1, 2, 3))], ⟨2, 2, [((0, 0), 0)]⟩⟩ :
            LoopState)).available.map Prod.fst).Nodup ∧
        (∀ q ∈ (removePlaced 0 1
          (⟨[((1, 2, 3), 1)], [((0, 1), (1, 2, 3))], ⟨2, 2, [((0, 0), 0)]⟩⟩ :
            LoopState)).available.map Prod.fst, q.2 < 4096)) ∧
      (Consistent (⟨[(((5 : ℚ) / 1, (6 : ℚ) / 1, (7 : ℚ) / 1), 1)],
          [((0, 1), ((5 : ℚ) / 1, (6 : ℚ) / 1, (7 : ℚ) / 1))],
          ⟨2, 2, [((0, 0), 0)]⟩⟩ : LoopState) ∧
        (((⟨[(((5 : ℚ) / 1, (6 : ℚ) / 1, (7 : ℚ) / 1), 1)],
          [((0, 1), ((5 : ℚ) / 1, (6 : ℚ) / 1, (7 : ℚ) / 1))],
          ⟨2, 2, [((0, 0), 0)]⟩⟩ : LoopState).available.map Prod.fst).Nodup) ∧
        (∀ q ∈ (⟨[(((5 : ℚ) / 1, (6 : ℚ) / 1, (7 : ℚ) / 1), 1)],
          [((0, 1), ((5 : ℚ) / 1, (6 : ℚ) / 1, (7 : ℚ) / 1))],
          ⟨2, 2, [((0, 0), 0)]⟩⟩ : LoopState).available.map Prod.fst,
          q.2 < 4096)) ∧
      ((∀ (p : ℕ × ℕ) (v : Vec3),
          lookupA p (⟨[((1, 2, 3), 1)], [((0, 1), (1, 2, 3))],
            ⟨2, 2, [((0, 0), 0)]⟩⟩ : LoopState).available = some v →
          (v, coord_to_int p.1 p.2) ∈
            (⟨[((1, 2, 3), 1)], [((0, 1), (1, 2, 3))],
              ⟨2, 2, [((0, 0), 0)]⟩⟩ : LoopState).kdtree) ∧
        (∀ e ∈ (⟨[((1, 2, 3), 1)], [((0, 1), (1, 2, 3))],
            ⟨2, 2, [((0, 0), 0)]⟩⟩ : LoopState).kdtree,
          ∃ (p : ℕ × ℕ) (v : Vec3),
            lookupA p (⟨[((1, 2, 3), 1)], [((0, 1), (1, 2, 3))],
              ⟨2, 2, [((0, 0), 0)]⟩⟩ : LoopState).available = some v ∧
            e = (v, coord_to_int p.1 p.2))) :=
  ⟨C2_frontier_index_sync.1 4096,
    C2_frontier_index_sync.2.1 _ 0 1 (by decide) (by decide)
      (consistent_of_eq (by decide)),
    C2_frontier_index_sync.2.2.1 [(5, 6, 7)]
      ⟨[], [], ⟨2, 2, [((0, 0), 0)]⟩⟩
      ⟨[(((5 : ℚ) / 1, (6 : ℚ) / 1, (7 : ℚ) / 1), 1)],
        [((0, 1), ((5 : ℚ) / 1, (6 : ℚ) / 1, (7 : ℚ) / 1))],
        ⟨2, 2, [((0, 0), 0)]⟩⟩
      (0, 1) (by decide) (by decide) (by decide)
      (consistent_of_eq rfl) rfl,
    C2_frontier_index_sync.2.2.2
      ⟨[((1, 2, 3), 1)], [((0, 1), (1, 2, 3))], ⟨2, 2, [((0, 0), 0)]⟩⟩
      (by decide) (consistent_of_eq (by decide))⟩

/-- C3: iteration 0 places at the grid center `(2048, 2048)` regardless of
the index contents (no query); every iteration `i > 0` places at the
frontier coordinate whose stored desired color is nearest (squared
Euclidean) to the catalog color — exposed by `chooseCoord`, the only
placement rule in `step`. -/
theorem C3_placement_rule :
    (∀ (lab : Vec3) (st : LoopState), st.buf.rows = 4096 → st.buf.cols = 4096 →
      chooseCoord 0 lab st = some (2048, 2048)) ∧
      (∀ (i : ℕ) (lab : Vec3) (st : LoopState), 0 < i →
        (st.available.map Prod.fst).Nodup →
        (∀ q ∈ st.available.map Prod.fst, q.2 < 4096) →
        Consistent st → st.available ≠ [] →
        ∃ (q : ℕ × ℕ) (v : Vec3), chooseCoord i lab st = some q ∧
          lookupA q st.available = some v ∧
          ∀ e ∈ st.available, squaredEuclidean lab v ≤ squaredEuclidean lab e.2) := by
  constructor
  · intro lab st hr hc
    unfold chooseCoord
    rw [if_pos rfl, hr, hc]
  · intro i lab st hi hnd hy hcons hne
    obtain ⟨q, v, r, hr, hunpack, hlook, _, hmin⟩ :=
      nearest_gives_min st lab hnd hy hcons hne
    refine ⟨q, v, ?_, hlook, hmin⟩
    unfold chooseCoord
    rw [if_neg (Nat.pos_iff_ne_zero.1 hi), hr]
    show some (int_to_coord r.2) = some q
    rw [hunpack]

theorem C3_placement_rule_witness :
    chooseCoord 0 ((0 : ℚ), (0 : ℚ), (0 : ℚ)) (initState 4096) =
        some (2048, 2048) ∧
      ∃ (q : ℕ × ℕ) (v : Vec3),
        chooseCoord 1 ((0 : ℚ), (0 : ℚ), (0 : ℚ))
          (⟨[((1, 2, 3), 1)], [((0, 1), (1, 2, 3))],
            ⟨2, 2, [((0, 0), 0)]⟩⟩ : LoopState) = some q ∧
        lookupA q (⟨[((1, 2, 3), 1)], [((0, 1), (1, 2, 3))],
          ⟨2, 2, [((0, 0), 0)]⟩⟩ : LoopState).available = some v ∧
        ∀ e ∈ (⟨[((1, 2, 3), 1)], [((0, 1), (1, 2, 3))],
          ⟨2, 2, [((0, 0), 0)]⟩⟩ : LoopState).available,
          squaredEuclidean ((0 : ℚ), (0 : ℚ), (0 : ℚ)) v ≤
            squaredEuclidean ((0 : ℚ), (0 : ℚ), (0 : ℚ)) e.2 :=
  ⟨C3_placement_rule.1 ((0 : ℚ), (0 : ℚ), (0 : ℚ)) (initState 4096) rfl rfl,
    C3_placement_rule.2 1 ((0 : ℚ), (0 : ℚ), (0 : ℚ))
      ⟨[((1, 2, 3), 1)], [((0, 1), (1, 2, 3))], ⟨2, 2, [((0, 0), 0)]⟩⟩
      (by decide) (by decide) (by decide)
      (consistent_of_eq (by decide))
      (by decide)⟩

end RainbowSmoke
